import Mathlib

/-!
# The MINIX random number generator (`drivers/memory/random.c`)

A shallow embedding of the entropy accumulator and counter-mode generator of
`random.c`, followed by theorems about it.

Conventions of the embedding.

* The global variables of the file are the fields of `State`; every C function
  becomes a function on `State`.
* `unsigned`, `unsigned long`, `size_t` and `u32_t` are the 32-bit words of the
  i386 target of the driver: arithmetic that can overflow is written with an
  explicit `% WORD`.
* Bytes are natural numbers; buffers are lists of bytes.
* A failed `assert` or a `panic` is the result `none`.
* The SHA-256 and Rijndael libraries are not part of the file: they are the
  parameters `sha256` and `rijndael` of `Prims`.
-/

namespace Random

/-! ## Constants -/

/-- Number of derivatives kept per source (`#define N_DERIV 16`). -/
def N_DERIV : Nat := 16

/-- Number of entropy pools (`#define NR_POOLS 32`). -/
def NR_POOLS : Nat := 32

/-- Number of samples needed in pool 0 for a re-seed (`#define MIN_SAMPLES 256`). -/
def MIN_SAMPLES : Nat := 256

/-- Modelled from the spec: `AES_BLOCKSIZE` of the missing header `aes/rijndael.h`
("block size = 16 bytes"). -/
def AES_BLOCKSIZE : Nat := 16

/-- Modelled from the spec: `SHA256_DIGEST_LENGTH` of the missing header `sha2.h`
("digest length = 32 bytes"). -/
def SHA256_DIGEST_LENGTH : Nat := 32

/-- The modulus of the 32-bit machine words (`unsigned`, `unsigned long`,
`size_t`, `u32_t`) of the i386 target. -/
def WORD : Nat := 2 ^ 32

/-! ## The primitives the file is linked against -/

/-- Modelled from the spec: the collaborators that `random.c` only includes.
`RANDOM_SOURCES` is the build-time constant of `random.h`; `sha256` is the
one-shot 256-bit hash computed by the streaming interface of `sha2.h`;
`rijndael key block` is the ECB encryption of one 16-byte block under the key
schedule made from the 32-byte `key` (`rijndael_makekey` followed by
`rijndael_ecb_encrypt`, both assumed to succeed as the asserts of the file
demand). -/
structure Prims where
  RANDOM_SOURCES : Nat
  sha256 : List Nat → List Nat
  rijndael : List Nat → List Nat → List Nat
  sources_pos : 0 < RANDOM_SOURCES
  sha256_length : ∀ m, (sha256 m).length = SHA256_DIGEST_LENGTH
  rijndael_length : ∀ k b, (rijndael k b).length = AES_BLOCKSIZE

/-- Modelled from the spec: a streaming hash context (`SHA256_CTX` of the missing
`sha2.h`), represented by the bytes absorbed since the last `SHA256_Init`. -/
abbrev SHA256_CTX := List Nat

/-- Modelled from the spec: `Init(ctx)`, the context becomes absorbent and empty. -/
def SHA256_Init : SHA256_CTX := []

/-- Modelled from the spec: `Update(ctx, bytes, len)`, absorb without finalization. -/
def SHA256_Update (ctx : SHA256_CTX) (data : List Nat) : SHA256_CTX := ctx ++ data

/-- Modelled from the spec: `Final(ctx, out32)`, the 32-byte digest of what was
absorbed. -/
def SHA256_Final (P : Prims) (ctx : SHA256_CTX) : List Nat := P.sha256 ctx

/-- The `n` bytes of the object representation of the word `x`, lowest byte first
(the i386 is little-endian). -/
def word_bytes (n : Nat) (x : Nat) : List Nat :=
  (List.range n).map (fun k => x / 256 ^ k % 256)

/-! ## The engine state -/

/-- The file-scope variables of `random.c`. -/
structure State where
  /-- The array `deriv[RANDOM_SOURCES][N_DERIV]`. -/
  deriv : Nat → Nat → Nat
  /-- The array `pool_ind[RANDOM_SOURCES]` of `int`. -/
  pool_ind : Nat → Int
  /-- The array `pool_ctx[NR_POOLS]`. -/
  pool_ctx : Nat → SHA256_CTX
  /-- The `unsigned samples`. -/
  samples : Nat
  /-- The `int got_seeded`. -/
  got_seeded : Int
  /-- The 32 bytes of `random_key`. -/
  random_key : List Nat
  /-- The `u32_t count_lo`. -/
  count_lo : Nat
  /-- The `u32_t count_hi`. -/
  count_hi : Nat
  /-- The `u32_t reseed_count`. -/
  reseed_count : Nat

/-- The state of the variables when the driver is loaded: static storage is
zero, and `samples` and `got_seeded` are explicitly initialised to 0. -/
def boot : State where
  deriv := fun _ _ => 0
  pool_ind := fun _ => 0
  pool_ctx := fun _ => []
  samples := 0
  got_seeded := 0
  random_key := List.replicate 32 0
  count_lo := 0
  count_hi := 0
  reseed_count := 0

/-! ## `random_init`, `random_isseeded` -/

/-- The function `random_init`: zero the derivative vectors and pool indices of
every source, initialise the 32 pools, zero the counter and the reseed count.
`samples`, `got_seeded` and `random_key` are not assigned. -/
def random_init (P : Prims) (st : State) : State :=
  { st with
    deriv := fun i j => if i < P.RANDOM_SOURCES ∧ j < N_DERIV then 0 else st.deriv i j
    pool_ind := fun i => if i < P.RANDOM_SOURCES then 0 else st.pool_ind i
    pool_ctx := fun i => if i < NR_POOLS then SHA256_Init else st.pool_ctx i
    count_lo := 0
    count_hi := 0
    reseed_count := 0 }

/-- The function `random_isseeded`. -/
def random_isseeded (st : State) : Int :=
  if st.got_seeded ≠ 0 then 1 else 0

/-- A freshly initialised engine: `random_init` run on the loaded driver. -/
def fresh (P : Prims) : State := random_init P boot

/-! ## `reseed` -/

/-- The local variables of the pool loop of `reseed`: the hash context `ctx`, the
pools, and the pool numbers printed by "random_reseed: adding pool %d". -/
structure ReseedVars where
  ctx : SHA256_CTX
  pool_ctx : Nat → SHA256_CTX
  added : List Nat

/-- The loop `for (i= 1; i<NR_POOLS; i++)` of `reseed`, run over the remaining
values of `i`: leave at the first `i` with bit `i-1` of `reseed_count` set,
otherwise finalize pool `i` into `ctx` and initialise it again. -/
def reseed_loop (P : Prims) (reseed_count : Nat) : List Nat → ReseedVars → ReseedVars
  | [], a => a
  | i :: rest, a =>
    if (reseed_count &&& (1 <<< (i - 1))) ≠ 0 then a
    else
      reseed_loop P reseed_count rest
        { ctx := SHA256_Update a.ctx (SHA256_Final P (a.pool_ctx i))
          pool_ctx := Function.update a.pool_ctx i SHA256_Init
          added := a.added ++ [i] }

/-- The function `reseed`, with the list of pool numbers it printed. -/
def reseed_run (P : Prims) (st : State) : State × List Nat :=
  if st.samples < MIN_SAMPLES then (st, [])
  else
    let reseed_count := (st.reseed_count + 1) % WORD
    let ctx := SHA256_Init
    let ctx := if st.got_seeded ≠ 0 then SHA256_Update ctx st.random_key else ctx
    let digest := SHA256_Final P (st.pool_ctx 0)
    let ctx := SHA256_Update ctx digest
    let pools := Function.update st.pool_ctx 0 SHA256_Init
    let r := reseed_loop P reseed_count (List.range' 1 (NR_POOLS - 1)) ⟨ctx, pools, []⟩
    let digest := SHA256_Final P r.ctx
    ({ st with
        reseed_count := reseed_count
        pool_ctx := r.pool_ctx
        random_key := digest
        samples := 0
        got_seeded := 1 }, r.added)

/-- The function `reseed`. -/
def reseed (P : Prims) (st : State) : State := (reseed_run P st).1

/-! ## `add_sample` -/

/-- The local variables of the derivative loop of `add_sample`. -/
structure DerivVars where
  row : Nat → Nat
  v : Nat
  min : Nat

/-- One pass of the body of the loop `for (i= 0; i<N_DERIV; i++)` of `add_sample`. -/
def deriv_body (a : DerivVars) (i : Nat) : DerivVars :=
  let di := a.row i
  let d := if a.v ≥ di then a.v - di else di - a.v
  { row := Function.update a.row i a.v
    v := d
    min := if d < a.min then d else a.min }

/-- The derivative loop of `add_sample` on the row `deriv[source]`, started with
`min= (unsigned long)-1` and `v= sample`. -/
def deriv_loop (row : Nat → Nat) (sample : Nat) : DerivVars :=
  (List.range N_DERIV).foldl deriv_body ⟨row, sample, WORD - 1⟩

/-- The function `add_sample`; `none` when the assertion on `pool_nr` fails. -/
def add_sample (st : State) (source : Nat) (sample : Nat) : Option State :=
  let r := deriv_loop (st.deriv source) sample
  let st1 := { st with deriv := Function.update st.deriv source r.row }
  if r.min < 2 then some st1
  else
    let pool_nr := st1.pool_ind source
    if ¬ (pool_nr ≥ 0 ∧ pool_nr < NR_POOLS) then none
    else
      let pools := Function.update st1.pool_ctx pool_nr.toNat
        (SHA256_Update (st1.pool_ctx pool_nr.toNat) (word_bytes 4 sample))
      let samples := if pool_nr = 0 then (st1.samples + 1) % WORD else st1.samples
      let pool_nr := pool_nr + 1
      let pool_nr := if pool_nr ≥ NR_POOLS then 0 else pool_nr
      some { st1 with
        pool_ctx := pools
        samples := samples
        pool_ind := Function.update st1.pool_ind source pool_nr }

/-! ## `random_update`, `random_putbytes` -/

/-- The loop `for (i= 0; i<count; i++) add_sample(source, buf[i])` of
`random_update`. -/
def add_samples (st : State) (source : Nat) : List Nat → Option State
  | [] => some st
  | s :: rest => (add_sample st source s).bind (fun st1 => add_samples st1 source rest)

/-- The function `random_update`; `none` on the panic for a bad source and on a
failed assertion. -/
def random_update (P : Prims) (st : State) (source : Int) (buf : List Nat) : Option State :=
  if source < 0 ∨ source ≥ P.RANDOM_SOURCES then none
  else (add_samples st source.toNat buf).map (reseed P)

/-- The function `random_putbytes`: `size` is `buf.length`, and `size*8` and the
addition to `samples` are 32-bit. -/
def random_putbytes (P : Prims) (st : State) (buf : List Nat) : State :=
  reseed P
    { st with
      pool_ctx := Function.update st.pool_ctx 0 (SHA256_Update (st.pool_ctx 0) buf)
      samples := (st.samples + buf.length * 8 % WORD) % WORD }

/-! ## `data_block`, `random_getbytes` -/

/-- The 16-byte input block of `data_block`: `count_lo`, then `count_hi`, then
zeros. -/
def counter_block (count_lo count_hi : Nat) : List Nat :=
  word_bytes 4 count_lo ++ word_bytes 4 count_hi ++ List.replicate (AES_BLOCKSIZE - 8) 0

/-- The function `data_block`: the block written to `data`, and the state with
the counter advanced. -/
def data_block (P : Prims) (key : List Nat) (st : State) : List Nat × State :=
  let data := P.rijndael key (counter_block st.count_lo st.count_hi)
  let count_lo := (st.count_lo + 1) % WORD
  let count_hi := if count_lo = 0 then (st.count_hi + 1) % WORD else st.count_hi
  (data, { st with count_lo := count_lo, count_hi := count_hi })

/-- The loop `while (size > 0)` of `random_getbytes`; `buf` is what has been
written to the caller's buffer so far. -/
def getbytes_loop (P : Prims) (key : List Nat) (st : State) (size : Nat) (buf : List Nat) :
    State × List Nat :=
  if size > 0 then
    if AES_BLOCKSIZE > size then
      let n := size
      let r := data_block P key st
      getbytes_loop P key r.2 (size - n) (buf ++ r.1.take n)
    else
      let n := AES_BLOCKSIZE
      let r := data_block P key st
      getbytes_loop P key r.2 (size - n) (buf ++ r.1)
  else (st, buf)
termination_by size
decreasing_by
  all_goals simp only [AES_BLOCKSIZE] at *
  all_goals omega

/-- The function `random_getbytes`: the new state and the `size` bytes written to
`buf`. -/
def random_getbytes (P : Prims) (st : State) (size : Nat) : State × List Nat :=
  let key := st.random_key
  let w := getbytes_loop P key st size []
  let k1 := data_block P key w.1
  let k2 := data_block P key k1.2
  ({ k2.2 with random_key := k1.1 ++ k2.1 }, w.2)

/-! ## Sequences of calls -/

/-- A call of one of the public functions of the file. -/
inductive Call where
  | init : Call
  | update (source : Int) (buf : List Nat) : Call
  | putbytes (buf : List Nat) : Call
  | getbytes (size : Nat) : Call

/-- The state after one call; `none` when the call panics or fails an assertion. -/
def call (P : Prims) (st : State) : Call → Option State
  | .init => some (random_init P st)
  | .update source buf => random_update P st source buf
  | .putbytes buf => some (random_putbytes P st buf)
  | .getbytes size => some (random_getbytes P st size).1

/-- The state after a sequence of calls. -/
def calls (P : Prims) (st : State) : List Call → Option State
  | [] => some st
  | c :: rest => (call P st c).bind (fun st1 => calls P st1 rest)

/-- The source argument of an `update` call is in range. -/
def Call.valid (P : Prims) : Call → Prop
  | .update source _ => 0 ≤ source ∧ source < P.RANDOM_SOURCES
  | _ => True

instance (P : Prims) (c : Call) : Decidable (c.valid P) := by
  cases c <;> unfold Call.valid <;> infer_instance

/-! ## Notions used in the statements -/

/-- Feeding the digests of the listed pools into a hash context, in list order. -/
def feed (P : Prims) (pool_ctx : Nat → SHA256_CTX) (ctx : SHA256_CTX) (l : List Nat) :
    SHA256_CTX :=
  l.foldl (fun c i => SHA256_Update c (SHA256_Final P (pool_ctx i))) ctx

/-- The context `reseed` feeds the pool digests into: it holds the old key when the
engine was seeded and is empty otherwise. -/
def reseed_ctx0 (st : State) : SHA256_CTX :=
  if st.got_seeded ≠ 0 then SHA256_Update SHA256_Init st.random_key else SHA256_Init

/-- The state after `k` successive calls of `data_block`. -/
def after_blocks (P : Prims) (key : List Nat) : Nat → State → State
  | 0, st => st
  | k + 1, st => after_blocks P key k (data_block P key st).2

/-- The concatenation of the blocks written by `k` successive calls of `data_block`. -/
def blocks (P : Prims) (key : List Nat) : Nat → State → List Nat
  | 0, _ => []
  | k + 1, st => (data_block P key st).1 ++ blocks P key k (data_block P key st).2

/-- The number of 16-byte blocks that cover `n` bytes, `ceil(n/16)`. -/
def nblocks (n : Nat) : Nat := (n + 15) / 16

/-- The value of the generator counter: `count_lo` is the low word, `count_hi` the
high word. -/
def counter (st : State) : Nat := st.count_lo + WORD * st.count_hi

/-- The state with the generator counter set to the value `x`. -/
def set_counter (st : State) (x : Nat) : State :=
  { st with count_lo := x % WORD, count_hi := x / WORD % WORD }

/-- The 16-byte block holding the integer `x` in its low bytes, lowest byte first,
and zeros elsewhere. -/
def blk (x : Nat) : List Nat := word_bytes 16 x

/-- The counter-mode reference: the encryptions under `K` of the blocks of the `m`
counter values `c`, `c+1`, ... taken modulo `2 ^ 64`, concatenated. -/
def stream (P : Prims) (K : List Nat) (c m : Nat) : List Nat :=
  ((List.range m).map (fun j => P.rijndael K (blk ((c + j) % 2 ^ 64)))).flatten

/-- The reference value `v_i` of the filter: `v_0` is the sample and `v_(i+1)` is
the absolute difference `d_i` of `v_i` and `deriv[src][i]`. -/
def ref_v (row : Nat → Nat) (sample : Nat) : Nat → Nat
  | 0 => sample
  | i + 1 =>
    if ref_v row sample i ≥ row i then ref_v row sample i - row i
    else row i - ref_v row sample i

/-- The reference difference `d_i = |v_i - deriv[src][i]|`. -/
def ref_d (row : Nat → Nat) (sample : Nat) (i : Nat) : Nat := ref_v row sample (i + 1)

/-- The reference minimum `min(d_0, ..., d_15)`. -/
def ref_min (row : Nat → Nat) (sample : Nat) : Nat :=
  ((List.range N_DERIV).map (ref_d row sample)).foldl min (ref_d row sample 0)

/-- The number of samples of a list that pass the test `min < 2` of `add_sample`
when they are fed in order to a source whose derivative row is `row`. -/
def accepted_count (row : Nat → Nat) : List Nat → Nat
  | [] => 0
  | s :: rest =>
    (if (deriv_loop row s).min < 2 then 0 else 1) + accepted_count (deriv_loop row s).row rest

/-- Every entry of `pool_ind` is a pool number. -/
def pool_ind_ok (st : State) : Prop :=
  ∀ src : Nat, 0 ≤ st.pool_ind src ∧ st.pool_ind src < NR_POOLS


/-! ## A small instance of the primitives, for concrete evaluation -/

/-- A stand-in hash: 32 bytes computed from the sum and the length of the message. -/
def toy_sha256 (m : List Nat) : List Nat :=
  (List.range 32).map (fun i => (m.sum + m.length + i) % 256)

/-- A stand-in block cipher: byte `i` of the block plus bytes `i` and `i+16` of the key. -/
def toy_rijndael (k b : List Nat) : List Nat :=
  (List.range 16).map (fun i => (b.getD i 0 + k.getD i 0 + k.getD (i + 16) 0 + 1) % 256)

/-- The primitives instantiated with the stand-ins and 16 sources. -/
def toy : Prims where
  RANDOM_SOURCES := 16
  sha256 := toy_sha256
  rijndael := toy_rijndael
  sources_pos := by decide
  sha256_length := by intro m; simp [toy_sha256, SHA256_DIGEST_LENGTH]
  rijndael_length := by intro k b; simp [toy_rijndael, AES_BLOCKSIZE]

/-- A sequence of calls with sources in range. -/
def sample_calls : List Call :=
  [Call.update 0 [5, 100, 7], Call.putbytes (List.replicate 32 0), Call.getbytes 20,
    Call.update 15 [1000, 3, 77777], Call.init]

/-- A state about to perform its fourth reseed. -/
def fourth_reseed : State := { fresh toy with samples := 256, reseed_count := 3 }

/-- A freshly initialised engine whose counter is then two steps before the wrap of
its 64 bits. -/
def near_wrap : State := { fresh toy with count_lo := 4294967294, count_hi := 4294967295 }

/-! ## Notions and inputs of the later statements -/

/-- Twelve bytes, a credit of 96 samples. -/
def twelve_bytes : List Nat := List.replicate 12 0

/-- A buffer of `2^29 - 1` bytes, whose 32-bit credit `size*8` is `2^32 - 8`. -/
def wrapping_buffer : List Nat := List.replicate 536870911 0

/-- A freshly initialised engine about to perform its first reseed. -/
def first_reseed : State := { fresh toy with samples := 256 }

/-- A state about to perform its second reseed. -/
def second_reseed : State := { fresh toy with samples := 256, reseed_count := 1 }

/-- A counter at its last 64-bit value. -/
def last_count : State := { fresh toy with count_lo := 4294967295, count_hi := 4294967295 }

/-- The integer a block of bytes holds, lowest byte first. -/
def block_value (b : List Nat) : Nat := b.foldr (fun x acc => x + 256 * acc) 0

/-- The input block that the next call of `data_block` encrypts. -/
def plaintext (st : State) : List Nat := counter_block st.count_lo st.count_hi

/-- The derivative row of a source after the samples of a list went through the
derivative loop of `add_sample`, in order. -/
def row_after (row : Nat → Nat) : List Nat → (Nat → Nat)
  | [] => row
  | x :: l => row_after (deriv_loop row x).row l

/-- Fed to `source` right after the samples `l`, the sample `x` is rejected: both
calls return and `add_sample` leaves the pool indices, the pools and `samples` as
they were. -/
def rejected_after (st : State) (source : Nat) (l : List Nat) (x : Nat) : Prop :=
  ∃ st1 st2, add_samples st source l = some st1 ∧ add_sample st1 source x = some st2 ∧
    st2.pool_ind = st1.pool_ind ∧ st2.pool_ctx = st1.pool_ctx ∧ st2.samples = st1.samples

/-- Fed to `source` right after the samples `l`, the sample `x` is accepted: both
calls return, the sample is appended to the pool of the source and the pool index
of the source advances. -/
def accepted_after (st : State) (source : Nat) (l : List Nat) (x : Nat) : Prop :=
  ∃ st1 st2, add_samples st source l = some st1 ∧ add_sample st1 source x = some st2 ∧
    st2.pool_ind source = (st1.pool_ind source + 1) % 32 ∧
    st2.pool_ctx (st1.pool_ind source).toNat =
      st1.pool_ctx (st1.pool_ind source).toNat ++ word_bytes 4 x

/-- The forward difference of order `k` of the sequence `s`, as an integer:
`fdiff s 0 t = s t` and `fdiff s (k+1) t = fdiff s k (t+1) - fdiff s k t`; it reads the
terms `s t, ..., s (t+k)`. The terms `s 0, ..., s T` are those of a polynomial
progression of degree below `n` exactly when the difference of order `n` vanishes at
every `t` with `t + n <= T`. -/
def fdiff (s : Nat → Nat) : Nat → Nat → Int
  | 0, t => (s t : Int)
  | k + 1, t => fdiff s k (t + 1) - fdiff s k t

/-- The progression `t^2 + 5`, whose differences of every order are non-negative. -/
def squares (t : Nat) : Nat := t * t + 5

/-- The fresh engine seeded by `random_putbytes` of the buffer `b1`. -/
def seeded_by (P : Prims) (b1 : List Nat) : State := random_putbytes P (fresh P) b1

/-- The seeded engine after `random_getbytes` of 16 bytes. -/
def drawn_once (P : Prims) (b1 : List Nat) : State := (random_getbytes P (seeded_by P b1) 16).1

/-- The engine after the draw and a second `random_putbytes`, of the buffer `b2`. -/
def reseeded (P : Prims) (b1 b2 : List Nat) : State := random_putbytes P (drawn_once P b1) b2

/-! ## The reseed schedule -/

theorem and_shift_ne_zero_iff (r j : Nat) : (r &&& (1 <<< j)) ≠ 0 ↔ r.testBit j = true := by
  rw [Nat.one_shiftLeft, Nat.and_two_pow]
  cases h : r.testBit j <;> simp

theorem mod_two_pow_eq_zero_iff (r i : Nat) :
    r % 2 ^ i = 0 ↔ ∀ j, j < i → r.testBit j = false := by
  constructor
  · intro h j hj
    have := Nat.testBit_mod_two_pow r i j
    rw [h] at this
    simp [hj] at this
    exact this.symm ▸ rfl
  · intro h
    apply Nat.eq_of_testBit_eq
    intro j
    rw [Nat.testBit_mod_two_pow]
    by_cases hj : j < i
    · simp [hj, h j hj]
    · simp [hj]


theorem feed_congr (P : Prims) (p q : Nat → SHA256_CTX) (l : List Nat)
    (h : ∀ i ∈ l, p i = q i) (ctx : SHA256_CTX) : feed P p ctx l = feed P q ctx l := by
  induction l generalizing ctx with
  | nil => rfl
  | cons a l ih =>
    simp only [feed, List.foldl_cons]
    rw [h a (List.mem_cons_self a l)]
    exact ih (fun i hi => h i (List.mem_cons_of_mem a hi)) _

theorem reseed_loop_spec (P : Prims) (r : Nat) :
    ∀ (n s : Nat) (a : ReseedVars), ∃ k, k ≤ n ∧
      (∀ j, s ≤ j → j < s + k → r.testBit (j - 1) = false) ∧
      (k < n → r.testBit (s + k - 1) = true) ∧
      reseed_loop P r (List.range' s n) a =
        { ctx := feed P a.pool_ctx a.ctx (List.range' s k)
          pool_ctx := fun i => if s ≤ i ∧ i < s + k then SHA256_Init else a.pool_ctx i
          added := a.added ++ List.range' s k } := by
  intro n
  induction n with
  | zero =>
    intro s a
    refine ⟨0, le_refl _, ?_, ?_, ?_⟩
    · intro j h1 h2; omega
    · intro h; omega
    · have hf : (fun i => if s ≤ i ∧ i < s then SHA256_Init else a.pool_ctx i) = a.pool_ctx := by
        funext i; rw [if_neg (by omega)]
      simp [reseed_loop, feed, hf]
  | succ n ih =>
    intro s a
    by_cases hb : r.testBit (s - 1) = true
    · refine ⟨0, Nat.zero_le _, ?_, ?_, ?_⟩
      · intro j h1 h2; omega
      · intro _; simpa using hb
      · have hf : (fun i => if s ≤ i ∧ i < s then SHA256_Init else a.pool_ctx i) = a.pool_ctx := by
          funext i; rw [if_neg (by omega)]
        simp [List.range'_succ, reseed_loop, and_shift_ne_zero_iff, hb, feed, hf]
    · obtain ⟨k, hk, h1, h2, h3⟩ := ih (s + 1)
        { ctx := SHA256_Update a.ctx (SHA256_Final P (a.pool_ctx s))
          pool_ctx := Function.update a.pool_ctx s SHA256_Init
          added := a.added ++ [s] }
      refine ⟨k + 1, by omega, ?_, ?_, ?_⟩
      · intro j hj1 hj2
        rcases Nat.eq_or_lt_of_le hj1 with h | h
        · subst h; simpa using hb
        · exact h1 j h (by omega)
      · intro hlt
        have := h2 (by omega)
        rwa [show s + (k + 1) - 1 = s + 1 + k - 1 by omega]
      · rw [List.range'_succ, reseed_loop, if_neg (by rw [and_shift_ne_zero_iff]; exact hb), h3]
        congr 1
        · rw [List.range'_succ s k]
          simp only [feed, List.foldl_cons]
          apply feed_congr
          intro i hi
          have : s + 1 ≤ i := (List.mem_range'_1.mp hi).1
          simp [Function.update, show i ≠ s by omega]
        · funext i
          by_cases his : i = s
          · subst his; simp
          · simp only [Function.update, his]
            by_cases hc : s + 1 ≤ i ∧ i < s + 1 + k
            · rw [if_pos hc, if_pos (by omega)]
            · rw [if_neg hc, if_neg (by omega)]; simp
        · simp [List.range'_succ s k]




theorem range_succ_eq_cons (k : Nat) : List.range (k + 1) = 0 :: List.range' 1 k := by
  rw [List.range_eq_range', List.range'_succ]

theorem reseed_run_spec (P : Prims) (st : State) (h : MIN_SAMPLES ≤ st.samples) :
    ∃ k, k < NR_POOLS ∧
      (∀ i, i ≤ k ↔ (i < NR_POOLS ∧ ((st.reseed_count + 1) % WORD) % 2 ^ i = 0)) ∧
      reseed_run P st =
        ({ st with
            reseed_count := (st.reseed_count + 1) % WORD
            pool_ctx := fun i => if i ≤ k then SHA256_Init else st.pool_ctx i
            random_key := SHA256_Final P (feed P st.pool_ctx (reseed_ctx0 st) (List.range (k + 1)))
            samples := 0
            got_seeded := 1 }, List.range' 1 k) := by
  obtain ⟨k, hk, h1, h2, h3⟩ := reseed_loop_spec P ((st.reseed_count + 1) % WORD) (NR_POOLS - 1) 1
    ⟨SHA256_Update (reseed_ctx0 st) (SHA256_Final P (st.pool_ctx 0)),
      Function.update st.pool_ctx 0 SHA256_Init, []⟩
  have hk31 : k ≤ 31 := by simpa [NR_POOLS] using hk
  refine ⟨k, by simp only [NR_POOLS]; omega, ?_, ?_⟩
  · intro i
    rw [mod_two_pow_eq_zero_iff]
    constructor
    · intro hi
      refine ⟨by simp only [NR_POOLS]; omega, ?_⟩
      intro j hj
      have := h1 (j + 1) (by omega) (by omega)
      simpa using this
    · rintro ⟨hi, hz⟩
      by_contra hcon
      have hki : k < i := by omega
      have hset := h2 (by simp only [NR_POOLS] at hi ⊢; omega)
      rw [show 1 + k - 1 = k by omega] at hset
      rw [hz k hki] at hset
      exact Bool.false_ne_true hset
  · unfold reseed_run
    rw [if_neg (by omega)]
    simp only []
    have hctx : (if st.got_seeded ≠ 0 then SHA256_Update SHA256_Init st.random_key
        else SHA256_Init) = reseed_ctx0 st := rfl
    rw [hctx, h3]
    simp only [List.nil_append]
    congr 2
    · funext i
      by_cases hi0 : i = 0
      · subst hi0; simp
      · simp only [Function.update, hi0]
        by_cases hc : 1 ≤ i ∧ i < 1 + k
        · rw [if_pos hc, if_pos (by omega)]
        · rw [if_neg hc, if_neg (by omega)]; simp
    · rw [range_succ_eq_cons]
      simp only [feed, List.foldl_cons]
      congr 1
      apply feed_congr
      intro i hi
      have : 1 ≤ i := (List.mem_range'_1.mp hi).1
      simp [Function.update, show i ≠ 0 by omega]



/-- C1: when `reseed` runs with `samples >= 256` and increments `reseed_count` to `r`,
the pools it finalizes into the new key and initialises again are pool 0 and the
printed pools, and pool `i` is one of them exactly when `i = 0` or `1 <= i < 32` and
`r mod 2^i = 0`; every other pool keeps its context. For `reseed_count` 0, 1, 2, 3
before the call (reseeds 1, 2, 3, 4 of a fresh engine) the drained pools are `{0}`,
`{0,1}`, `{0}` and `{0,1,2}`. -/
theorem reseed_drains_scheduled_pools (P : Prims) (st : State) (h : MIN_SAMPLES ≤ st.samples) :
    (reseed P st).reseed_count = (st.reseed_count + 1) % WORD ∧
    (∀ i, i ∈ 0 :: (reseed_run P st).2 ↔
      (i = 0 ∨ (1 ≤ i ∧ i < NR_POOLS ∧ (reseed P st).reseed_count % 2 ^ i = 0))) ∧
    (reseed P st).random_key =
      SHA256_Final P (feed P st.pool_ctx (reseed_ctx0 st) (0 :: (reseed_run P st).2)) ∧
    (∀ i, i ∈ 0 :: (reseed_run P st).2 → (reseed P st).pool_ctx i = SHA256_Init) ∧
    (∀ i, i ∉ 0 :: (reseed_run P st).2 → (reseed P st).pool_ctx i = st.pool_ctx i) ∧
    (st.reseed_count = 0 → 0 :: (reseed_run P st).2 = [0]) ∧
    (st.reseed_count = 1 → 0 :: (reseed_run P st).2 = [0, 1]) ∧
    (st.reseed_count = 2 → 0 :: (reseed_run P st).2 = [0]) ∧
    (st.reseed_count = 3 → 0 :: (reseed_run P st).2 = [0, 1, 2]) := by
  obtain ⟨k, hk, hiff, hrun⟩ := reseed_run_spec P st h
  have hmem : ∀ i, i ∈ 0 :: List.range' 1 k ↔ i ≤ k := by
    intro i
    rw [← range_succ_eq_cons, List.mem_range]
    omega
  simp only [reseed, hrun]
  refine ⟨trivial, ?_, ?_, ?_, ?_, ?_, ?_, ?_, ?_⟩
  · intro i
    rw [hmem, hiff]
    constructor
    · rintro ⟨h1, h2⟩
      by_cases hi : i = 0
      · exact Or.inl hi
      · exact Or.inr ⟨by omega, h1, h2⟩
    · rintro (h0 | ⟨_, h1, h2⟩)
      · subst h0; exact ⟨by decide, by rw [pow_zero]; exact Nat.mod_one _⟩
      · exact ⟨h1, h2⟩
  · rw [range_succ_eq_cons]
  · intro i hi
    rw [hmem] at hi
    simp [hi]
  · intro i hi
    rw [hmem] at hi
    simp [hi]
  · intro h0
    have h1 := hiff 1
    rw [h0] at h1
    have : k = 0 := by
      by_contra hne
      have := h1.mp (by omega)
      simp [WORD] at this
    subst this; rfl
  · intro h0
    have h1 := hiff 1
    have h2 := hiff 2
    rw [h0] at h1 h2
    have hk1 : 1 ≤ k := h1.mpr (by simp [WORD, NR_POOLS])
    have : k = 1 := by
      by_contra hne
      have := h2.mp (by omega)
      simp [WORD] at this
    subst this; rfl
  · intro h0
    have h1 := hiff 1
    rw [h0] at h1
    have : k = 0 := by
      by_contra hne
      have := h1.mp (by omega)
      simp [WORD] at this
    subst this; rfl
  · intro h0
    have h2 := hiff 2
    have h3 := hiff 3
    rw [h0] at h2 h3
    have hk1 : 2 ≤ k := h2.mpr (by simp [WORD, NR_POOLS])
    have : k = 2 := by
      by_contra hne
      have := h3.mp (by omega)
      simp [WORD] at this
    subst this; rfl

/-- The fourth reseed of the small instance drains pools 0, 1 and 2. -/
theorem reseed_drains_scheduled_pools_witness :
    MIN_SAMPLES ≤ fourth_reseed.samples ∧
    0 :: (reseed_run toy fourth_reseed).2 = [0, 1, 2] :=
  ⟨by decide, (reseed_drains_scheduled_pools toy fourth_reseed (by decide)).2.2.2.2.2.2.2.2 rfl⟩

/-! ## The output generator -/


theorem data_block_length (P : Prims) (key : List Nat) (st : State) :
    (data_block P key st).1.length = 16 := by
  simp [data_block, P.rijndael_length, AES_BLOCKSIZE]

theorem blocks_length (P : Prims) (key : List Nat) :
    ∀ (k : Nat) (st : State), (blocks P key k st).length = 16 * k := by
  intro k
  induction k with
  | zero => intro st; simp [blocks]
  | succ k ih =>
    intro st
    simp only [blocks, List.length_append, data_block_length, ih]
    omega

theorem getbytes_loop_eq (P : Prims) (key : List Nat) :
    ∀ (size : Nat) (st : State) (buf : List Nat),
      getbytes_loop P key st size buf =
        (after_blocks P key (nblocks size) st, buf ++ (blocks P key (nblocks size) st).take size) := by
  intro size
  induction size using Nat.strong_induction_on with
  | _ size ih =>
    intro st buf
    rw [getbytes_loop]
    by_cases h0 : size > 0
    · rw [if_pos h0]
      by_cases h16 : AES_BLOCKSIZE > size
      · rw [if_pos h16]
        simp only [AES_BLOCKSIZE] at h16
        have hm : nblocks size = 1 := by simp only [nblocks]; omega
        rw [ih (size - size) (by omega), hm, Nat.sub_self]
        simp [nblocks, after_blocks, blocks]
      · rw [if_neg h16]
        simp only [AES_BLOCKSIZE] at h16 ⊢
        have hm : nblocks size = nblocks (size - 16) + 1 := by simp only [nblocks]; omega
        rw [ih (size - 16) (by omega), hm]
        simp only [after_blocks, blocks, List.append_assoc]
        have ht : ∀ S : List Nat, List.take size ((data_block P key st).1 ++ S) =
            (data_block P key st).1 ++ List.take (size - 16) S := by
          intro S
          rw [List.take_append_eq_append_take, data_block_length,
            List.take_of_length_le (by rw [data_block_length]; omega)]
        rw [ht]
    · rw [if_neg h0]
      have : size = 0 := by omega
      subst this
      simp [nblocks, after_blocks, blocks]

theorem random_getbytes_eq (P : Prims) (st : State) (size : Nat) :
    random_getbytes P st size =
      ({ after_blocks P st.random_key (nblocks size + 2) st with
          random_key := blocks P st.random_key 2 (after_blocks P st.random_key (nblocks size) st) },
        (blocks P st.random_key (nblocks size) st).take size) := by
  simp only [random_getbytes, getbytes_loop_eq, List.nil_append]
  have ha : ∀ (k j : Nat) (s : State), after_blocks P st.random_key (k + j) s =
      after_blocks P st.random_key j (after_blocks P st.random_key k s) := by
    intro k
    induction k with
    | zero => intro j s; simp [after_blocks]
    | succ k ih => intro j s; rw [show k + 1 + j = (k + j) + 1 by omega]; simp only [after_blocks, ih]
  rw [ha]
  simp [after_blocks, blocks]






theorem counter_block_eq (lo hi : Nat) (hlo : lo < WORD) (hhi : hi < WORD) :
    counter_block lo hi = blk (lo + WORD * hi) := by
  simp only [WORD] at hlo hhi
  simp only [counter_block, blk, word_bytes, AES_BLOCKSIZE, WORD, List.range, List.range.loop,
    List.map, List.replicate, List.cons_append, List.nil_append, List.cons.injEq, and_true]
  norm_num
  omega


theorem data_block_set_counter (P : Prims) (key : List Nat) (st : State) (x : Nat) :
    data_block P key (set_counter st (x % 2 ^ 64)) =
      (P.rijndael key (blk (x % 2 ^ 64)), set_counter st ((x + 1) % 2 ^ 64)) := by
  have hb : counter_block (x % 2 ^ 64 % WORD) (x % 2 ^ 64 / WORD % WORD) = blk (x % 2 ^ 64) := by
    rw [counter_block_eq _ _ (Nat.mod_lt _ (by decide)) (Nat.mod_lt _ (by decide))]
    congr 1
    simp only [WORD]
    omega
  simp only [data_block, set_counter, hb]
  congr 2
  · simp only [WORD]; omega
  · simp only [WORD]
    split <;> omega

theorem blocks_set_counter (P : Prims) (key : List Nat) (st : State) :
    ∀ (m x : Nat), blocks P key m (set_counter st (x % 2 ^ 64)) = stream P key x m := by
  intro m
  induction m with
  | zero => intro x; simp [blocks, stream]
  | succ m ih =>
    intro x
    simp only [blocks, data_block_set_counter, ih, stream, List.range_succ_eq_map, List.map_cons,
      List.flatten_cons, List.map_map, Nat.add_zero]
    congr 3
    funext j
    simp only [Function.comp, Nat.succ_eq_add_one]
    rw [show x + 1 + j = x + (j + 1) by omega]

theorem after_blocks_set_counter (P : Prims) (key : List Nat) (st : State) :
    ∀ (m x : Nat), after_blocks P key m (set_counter st (x % 2 ^ 64)) =
      set_counter st ((x + m) % 2 ^ 64) := by
  intro m
  induction m with
  | zero => intro x; simp [after_blocks]
  | succ m ih =>
    intro x
    simp only [after_blocks, data_block_set_counter, ih]
    rw [show x + 1 + m = x + (m + 1) by omega]

theorem set_counter_self (st : State) (hlo : st.count_lo < WORD) (hhi : st.count_hi < WORD) :
    set_counter st (counter st % 2 ^ 64) = st := by
  simp only [WORD] at hlo hhi
  have h1 : (st.count_lo + 2 ^ 32 * st.count_hi) % 2 ^ 64 % 2 ^ 32 = st.count_lo := by omega
  have h2 : (st.count_lo + 2 ^ 32 * st.count_hi) % 2 ^ 64 / 2 ^ 32 % 2 ^ 32 = st.count_hi := by
    omega
  simp only [set_counter, counter, WORD, h1, h2]

theorem counter_set_counter (st : State) (x : Nat) :
    counter (set_counter st (x % 2 ^ 64)) = x % 2 ^ 64 := by
  simp only [counter, set_counter, WORD]
  omega

/-- The effect of `random_getbytes` on a state whose counter words are 32-bit. -/
theorem random_getbytes_counter_mode (P : Prims) (st : State) (size : Nat)
    (hlo : st.count_lo < WORD) (hhi : st.count_hi < WORD) :
    random_getbytes P st size =
      ({ set_counter st ((counter st + nblocks size + 2) % 2 ^ 64) with
          random_key :=
            P.rijndael st.random_key (blk ((counter st + nblocks size) % 2 ^ 64)) ++
            P.rijndael st.random_key (blk ((counter st + nblocks size + 1) % 2 ^ 64)) },
        (stream P st.random_key (counter st) (nblocks size)).take size) := by
  rw [random_getbytes_eq]
  conv_lhs => rw [← set_counter_self st hlo hhi]
  simp only [after_blocks_set_counter, blocks_set_counter]
  rw [show counter st + nblocks size + 2 = counter st + (nblocks size + 2) by omega,
    show counter st + nblocks size + 1 = counter st + nblocks size + 1 + 0 by omega]
  simp [set_counter, stream, List.range_succ_eq_map, List.range, List.range.loop]
theorem data_block_frame (P : Prims) (key : List Nat) (st : State) :
    (data_block P key st).2.deriv = st.deriv ∧ (data_block P key st).2.pool_ind = st.pool_ind ∧
    (data_block P key st).2.pool_ctx = st.pool_ctx ∧ (data_block P key st).2.samples = st.samples ∧
    (data_block P key st).2.got_seeded = st.got_seeded ∧
    (data_block P key st).2.reseed_count = st.reseed_count ∧
    (data_block P key st).2.random_key = st.random_key :=
  ⟨rfl, rfl, rfl, rfl, rfl, rfl, rfl⟩

theorem after_blocks_frame (P : Prims) (key : List Nat) :
    ∀ (k : Nat) (st : State),
      (after_blocks P key k st).deriv = st.deriv ∧ (after_blocks P key k st).pool_ind = st.pool_ind ∧
      (after_blocks P key k st).pool_ctx = st.pool_ctx ∧
      (after_blocks P key k st).samples = st.samples ∧
      (after_blocks P key k st).got_seeded = st.got_seeded ∧
      (after_blocks P key k st).reseed_count = st.reseed_count ∧
      (after_blocks P key k st).random_key = st.random_key := by
  intro k
  induction k with
  | zero => intro st; exact ⟨rfl, rfl, rfl, rfl, rfl, rfl, rfl⟩
  | succ k ih => intro st; exact ih (data_block P key st).2

theorem getbytes_output_length (P : Prims) (st : State) (n : Nat) :
    (random_getbytes P st n).2.length = n := by
  rw [random_getbytes_eq]
  simp only [List.length_take, blocks_length, nblocks]
  omega

/-- C2 (as amended): `random_getbytes` does not test `got_seeded`. On every state with
`got_seeded = 0` it reports no error: it writes `n` bytes, the first `n` bytes of the
blocks of `ceil(n/16)` calls of `data_block`, overwrites the key with the next two
blocks and leaves the counter where `ceil(n/16) + 2` calls of `data_block` put it;
the pools, `samples`, `reseed_count`, `got_seeded`, `deriv` and `pool_ind` are
unchanged. -/
theorem getbytes_unseeded_still_generates (P : Prims) (st : State) (n : Nat)
    (h : st.got_seeded = 0) :
    random_isseeded st = 0 ∧
    (random_getbytes P st n).2.length = n ∧
    (random_getbytes P st n).2 = (blocks P st.random_key (nblocks n) st).take n ∧
    (random_getbytes P st n).1.random_key =
      blocks P st.random_key 2 (after_blocks P st.random_key (nblocks n) st) ∧
    (random_getbytes P st n).1.count_lo = (after_blocks P st.random_key (nblocks n + 2) st).count_lo ∧
    (random_getbytes P st n).1.count_hi = (after_blocks P st.random_key (nblocks n + 2) st).count_hi ∧
    (random_getbytes P st n).1.pool_ctx = st.pool_ctx ∧
    (random_getbytes P st n).1.samples = st.samples ∧
    (random_getbytes P st n).1.reseed_count = st.reseed_count ∧
    (random_getbytes P st n).1.got_seeded = 0 ∧
    (random_getbytes P st n).1.deriv = st.deriv ∧
    (random_getbytes P st n).1.pool_ind = st.pool_ind := by
  have hf := after_blocks_frame P st.random_key (nblocks n + 2) st
  refine ⟨by simp [random_isseeded, h], getbytes_output_length P st n, ?_⟩
  rw [random_getbytes_eq]
  exact ⟨rfl, rfl, rfl, rfl, hf.2.2.1, hf.2.2.2.1, hf.2.2.2.2.2.1, hf.2.2.2.2.1.trans h, hf.1, hf.2.1⟩

/-- The unseeded engine right after `random_init` generates. -/
theorem getbytes_unseeded_still_generates_witness :
    (fresh toy).got_seeded = 0 ∧ (random_getbytes toy (fresh toy) 16).2.length = 16 :=
  ⟨by decide, (getbytes_unseeded_still_generates toy (fresh toy) 16 (by decide)).2.1⟩

/-- C2 fails as stated: after `random_init` the engine is not seeded, yet
`random_getbytes` for 16 bytes produces 16 output bytes and changes the state (the
counter goes from 0 to 3). -/
theorem getbytes_unseeded_counterexample :
    random_isseeded (fresh toy) = 0 ∧
    ¬ ((random_getbytes toy (fresh toy) 16).2 = [] ∧
       (random_getbytes toy (fresh toy) 16).1.count_lo = (fresh toy).count_lo) ∧
    (random_getbytes toy (fresh toy) 16).2.length = 16 ∧
    (fresh toy).count_lo = 0 ∧
    (random_getbytes toy (fresh toy) 16).1.count_lo = 3 := by
  rw [random_getbytes_eq]
  decide

/-- C3 (as amended): with `K` the key, `c` the value of the 64-bit counter
(`count_lo`, `count_hi`) and `m = ceil(n/16)`, `random_getbytes` writes the first `n`
bytes of `E_K(blk(c)) || ... || E_K(blk(c+m-1))`, the key becomes
`E_K(blk(c+m)) || E_K(blk(c+m+1))` and the counter becomes `c+m+2`, all counter values
taken modulo `2^64`; when `c+m+1 < 2^64` the two counter values of the key are
strictly greater than every counter value of the output. -/
theorem getbytes_counter_mode (P : Prims) (st : State) (n : Nat)
    (hlo : st.count_lo < WORD) (hhi : st.count_hi < WORD) :
    (random_getbytes P st n).2 = (stream P st.random_key (counter st) (nblocks n)).take n ∧
    (random_getbytes P st n).1.random_key =
      P.rijndael st.random_key (blk ((counter st + nblocks n) % 2 ^ 64)) ++
      P.rijndael st.random_key (blk ((counter st + nblocks n + 1) % 2 ^ 64)) ∧
    counter (random_getbytes P st n).1 = (counter st + nblocks n + 2) % 2 ^ 64 ∧
    (counter st + nblocks n + 1 < 2 ^ 64 →
      ∀ j, j < nblocks n →
        (counter st + j) % 2 ^ 64 < (counter st + nblocks n) % 2 ^ 64 ∧
        (counter st + j) % 2 ^ 64 < (counter st + nblocks n + 1) % 2 ^ 64) := by
  rw [random_getbytes_counter_mode P st n hlo hhi]
  refine ⟨rfl, rfl, ?_, ?_⟩
  · exact counter_set_counter st _
  · intro hlt j hj
    rw [Nat.mod_eq_of_lt (by omega), Nat.mod_eq_of_lt (by omega), Nat.mod_eq_of_lt (by omega)]
    omega

/-- The counter-mode equations at a counter two steps before its wrap. -/
theorem getbytes_counter_mode_witness :
    near_wrap.count_lo < WORD ∧ near_wrap.count_hi < WORD ∧
    counter (random_getbytes toy near_wrap 16).1 = (counter near_wrap + nblocks 16 + 2) % 2 ^ 64 :=
  ⟨by decide, by decide,
    (getbytes_counter_mode toy near_wrap 16 (by decide) (by decide)).2.2.1⟩

/-- C3 fails as stated: at the counter value `2^64 - 2`, a request of 16 bytes leaves
the counter at 1, not at `c + m + 2`, and the second half of the new key is the
encryption of the block of counter value 0, which is not greater than the counter
value `2^64 - 2` of the output block. -/
theorem getbytes_counter_wraps_counterexample :
    counter near_wrap = 2 ^ 64 - 2 ∧
    ¬ (counter (random_getbytes toy near_wrap 16).1 = counter near_wrap + nblocks 16 + 2) ∧
    (random_getbytes toy near_wrap 16).1.random_key =
      toy.rijndael near_wrap.random_key (counter_block 4294967295 4294967295) ++
      toy.rijndael near_wrap.random_key (counter_block 0 0) := by
  rw [random_getbytes_eq]
  decide

/-- C4 (as amended): `random_getbytes` with `size = 0` returns, writes no byte and still
generates a new key: the key becomes `E_K(blk(c)) || E_K(blk(c+1))` and the counter
becomes `c + 2` (modulo `2^64`), which differs from `c`. -/
theorem getbytes_zero_rekeys (P : Prims) (st : State)
    (hlo : st.count_lo < WORD) (hhi : st.count_hi < WORD) :
    (random_getbytes P st 0).2 = [] ∧
    (random_getbytes P st 0).1.random_key =
      P.rijndael st.random_key (blk (counter st)) ++
      P.rijndael st.random_key (blk ((counter st + 1) % 2 ^ 64)) ∧
    counter (random_getbytes P st 0).1 = (counter st + 2) % 2 ^ 64 ∧
    counter (random_getbytes P st 0).1 ≠ counter st := by
  have hc : counter st < 2 ^ 64 := by
    simp only [counter, WORD] at *
    omega
  rw [random_getbytes_counter_mode P st 0 hlo hhi]
  have h2 : counter (set_counter st ((counter st + 2) % 2 ^ 64)) = (counter st + 2) % 2 ^ 64 :=
    counter_set_counter st (counter st + 2)
  refine ⟨rfl, ?_, h2, ?_⟩
  · show P.rijndael st.random_key (blk ((counter st + 0) % 2 ^ 64)) ++ _ = _
    rw [Nat.add_zero, Nat.mod_eq_of_lt hc]
    rfl
  · intro heq
    have h3 : (counter st + 2) % 2 ^ 64 = counter st := h2.symm.trans heq
    omega

/-- A request of zero bytes on the fresh engine moves the counter. -/
theorem getbytes_zero_rekeys_witness :
    (fresh toy).count_lo < WORD ∧ (fresh toy).count_hi < WORD ∧
    counter (random_getbytes toy (fresh toy) 0).1 ≠ counter (fresh toy) :=
  ⟨by decide, by decide, (getbytes_zero_rekeys toy (fresh toy) (by decide) (by decide)).2.2.2⟩

/-- C4 fails as stated: on the fresh engine a request of zero bytes does not leave
both the key and the counter as they were. -/
theorem getbytes_zero_counterexample :
    ¬ ((random_getbytes toy (fresh toy) 0).1.random_key = (fresh toy).random_key ∧
       (random_getbytes toy (fresh toy) 0).1.count_lo = (fresh toy).count_lo ∧
       (random_getbytes toy (fresh toy) 0).1.count_hi = (fresh toy).count_hi) := by
  rw [random_getbytes_eq]
  decide

/-- C5: for every state and every `n` (in particular every `n > 0` that is not a
multiple of 16), `random_getbytes` writes exactly `n` bytes and they are the first
`n` bytes written for the request of `16 * ceil(n/16)` bytes from the same state. -/
theorem getbytes_tail_is_block_prefix (P : Prims) (st : State) (n : Nat) :
    (random_getbytes P st n).2.length = n ∧
    (random_getbytes P st n).2 = (random_getbytes P st (16 * nblocks n)).2.take n := by
  refine ⟨getbytes_output_length P st n, ?_⟩
  have hm : nblocks (16 * nblocks n) = nblocks n := by
    simp only [nblocks]; omega
  rw [random_getbytes_eq, random_getbytes_eq, hm]
  simp only []
  rw [List.take_take, Nat.min_eq_left (by simp only [nblocks]; omega)]

/-! ## Reseeding and `random_putbytes` -/

theorem reseed_below_threshold (P : Prims) (st : State) (h : st.samples < MIN_SAMPLES) :
    reseed P st = st := by
  simp [reseed, reseed_run, h]

theorem feed_eq_append (P : Prims) (pools : Nat → SHA256_CTX) (l : List Nat) :
    ∀ ctx : SHA256_CTX,
      feed P pools ctx l = ctx ++ (l.map (fun i => P.sha256 (pools i))).flatten := by
  induction l with
  | nil => intro ctx; simp [feed]
  | cons a l ih =>
    intro ctx
    have h := ih (SHA256_Update ctx (SHA256_Final P (pools a)))
    simp only [feed, List.foldl_cons] at h ⊢
    rw [h]
    simp [SHA256_Update, SHA256_Final]

/-- C7: when a reseed fires (`samples >= 256`) with incremented count `r`, there is a
`k < 32` such that pools `0..k` are exactly the pools `i < 32` with `r mod 2^i = 0`,
the new key is the hash of `P || D_0 || ... || D_k` where `P` is the old key when
`got_seeded` was set and empty otherwise and `D_i` is the digest of what pool `i`
absorbed; afterwards pools `0..k` are empty, the other pools are unchanged,
`samples = 0` and the engine is seeded. -/
theorem reseed_key_derivation (P : Prims) (st : State) (h : MIN_SAMPLES ≤ st.samples) :
    ∃ k, k < NR_POOLS ∧
      (∀ i, i ≤ k ↔ (i < NR_POOLS ∧ (reseed P st).reseed_count % 2 ^ i = 0)) ∧
      (reseed P st).reseed_count = (st.reseed_count + 1) % WORD ∧
      (reseed P st).random_key =
        P.sha256 ((if st.got_seeded ≠ 0 then st.random_key else []) ++
          ((List.range (k + 1)).map (fun i => P.sha256 (st.pool_ctx i))).flatten) ∧
      (∀ i, i ≤ k → (reseed P st).pool_ctx i = []) ∧
      (∀ i, k < i → (reseed P st).pool_ctx i = st.pool_ctx i) ∧
      (reseed P st).samples = 0 ∧
      random_isseeded (reseed P st) = 1 := by
  obtain ⟨k, hk, hiff, hrun⟩ := reseed_run_spec P st h
  refine ⟨k, hk, ?_⟩
  simp only [reseed, hrun]
  refine ⟨hiff, trivial, ?_, ?_, ?_, trivial, ?_⟩
  · rw [feed_eq_append]
    simp only [SHA256_Final, reseed_ctx0, SHA256_Update, SHA256_Init, List.nil_append]
  · intro i hi
    simp [hi, SHA256_Init]
  · intro i hi
    simp [Nat.not_le.mpr hi]
  · simp [random_isseeded]

/-- The key derivation at the fourth reseed of the small instance. -/
theorem reseed_key_derivation_witness :
    MIN_SAMPLES ≤ fourth_reseed.samples ∧
    ∃ k, k < NR_POOLS ∧
      (∀ i, i ≤ k ↔ (i < NR_POOLS ∧ (reseed toy fourth_reseed).reseed_count % 2 ^ i = 0)) ∧
      (reseed toy fourth_reseed).reseed_count = (fourth_reseed.reseed_count + 1) % WORD ∧
      (reseed toy fourth_reseed).random_key =
        toy.sha256 ((if fourth_reseed.got_seeded ≠ 0 then fourth_reseed.random_key else []) ++
          ((List.range (k + 1)).map (fun i => toy.sha256 (fourth_reseed.pool_ctx i))).flatten) ∧
      (∀ i, i ≤ k → (reseed toy fourth_reseed).pool_ctx i = []) ∧
      (∀ i, k < i → (reseed toy fourth_reseed).pool_ctx i = fourth_reseed.pool_ctx i) ∧
      (reseed toy fourth_reseed).samples = 0 ∧
      random_isseeded (reseed toy fourth_reseed) = 1 :=
  ⟨by decide, reseed_key_derivation toy fourth_reseed (by decide)⟩

theorem reseed_loop_first (P : Prims) (a : ReseedVars) :
    reseed_loop P (1 % WORD) (List.range' 1 (NR_POOLS - 1)) a = a := by
  rw [show NR_POOLS - 1 = 30 + 1 from rfl, List.range'_succ, reseed_loop]
  rw [if_pos (by decide)]

theorem reseed_first (P : Prims) (st : State) (h0 : st.reseed_count = 0)
    (h : MIN_SAMPLES ≤ st.samples) :
    reseed P st =
      { st with
        reseed_count := 1
        pool_ctx := Function.update st.pool_ctx 0 SHA256_Init
        random_key := SHA256_Final P (SHA256_Update (reseed_ctx0 st) (SHA256_Final P (st.pool_ctx 0)))
        samples := 0
        got_seeded := 1 } := by
  unfold reseed reseed_run
  rw [if_neg (by omega), h0]
  simp only [Nat.zero_add, reseed_loop_first]
  rfl

theorem fresh_samples_credit (buf : List Nat) :
    (0 + buf.length * 8 % WORD) % WORD = buf.length * 8 % WORD := by
  rw [Nat.zero_add, Nat.mod_mod]

/-- What `random_putbytes` does on a fresh engine: the credit is `8 * len` reduced
modulo `2^32`; when it reaches 256 the engine reseeds (seeded, `samples = 0`,
`reseed_count = 1`), otherwise it stays unseeded with `samples` equal to the
credit. -/
theorem putbytes_fresh_credit (P : Prims) (buf : List Nat) :
    (256 ≤ buf.length * 8 % WORD →
      random_isseeded (random_putbytes P (fresh P) buf) = 1 ∧
      (random_putbytes P (fresh P) buf).samples = 0 ∧
      (random_putbytes P (fresh P) buf).reseed_count = 1 ∧
      (random_putbytes P (fresh P) buf).random_key = P.sha256 (P.sha256 buf)) ∧
    (buf.length * 8 % WORD < 256 →
      random_isseeded (random_putbytes P (fresh P) buf) = 0 ∧
      (random_putbytes P (fresh P) buf).samples = buf.length * 8 % WORD ∧
      (random_putbytes P (fresh P) buf).reseed_count = 0 ∧
      (random_putbytes P (fresh P) buf).pool_ctx 0 = buf) := by
  constructor
  · intro h
    rw [random_putbytes, reseed_first P _ rfl
      (by show MIN_SAMPLES ≤ (0 + buf.length * 8 % WORD) % WORD
          rw [fresh_samples_credit]; exact h)]
    refine ⟨rfl, rfl, rfl, ?_⟩
    simp [reseed_ctx0, fresh, random_init, boot, SHA256_Final, SHA256_Update, SHA256_Init, NR_POOLS]
  · intro h
    rw [random_putbytes, reseed_below_threshold P _
      (by show (0 + buf.length * 8 % WORD) % WORD < MIN_SAMPLES
          rw [fresh_samples_credit]; exact h)]
    refine ⟨rfl, fresh_samples_credit buf, rfl, ?_⟩
    simp [fresh, random_init, boot, SHA256_Update, SHA256_Init, NR_POOLS]

/-- C6, the code at the failing input: for a buffer of `2^29` bytes (at least 32 bytes)
the 32-bit product `size*8` is 0, so on a fresh engine `random_putbytes` ends with
the engine not seeded, `samples = 0` and `reseed_count = 0`. -/
theorem putbytes_credit_wraps (P : Prims) :
    32 ≤ (List.replicate (2 ^ 29) 0).length ∧
    random_isseeded (random_putbytes P (fresh P) (List.replicate (2 ^ 29) 0)) = 0 ∧
    (random_putbytes P (fresh P) (List.replicate (2 ^ 29) 0)).samples = 0 ∧
    (random_putbytes P (fresh P) (List.replicate (2 ^ 29) 0)).reseed_count = 0 := by
  have hl : (List.replicate (2 ^ 29) 0).length * 8 % WORD = 0 := by
    rw [List.length_replicate]; rfl
  have h := (putbytes_fresh_credit P (List.replicate (2 ^ 29) 0)).2 (by rw [hl]; decide)
  rw [hl] at h
  exact ⟨by rw [List.length_replicate]; decide, h.1, h.2.1, h.2.2.1⟩

/-! ## The sample filter and the pools -/



theorem foldl_min_lt (l : List Nat) :
    ∀ (M t : Nat), l.foldl min M < t ↔ (M < t ∨ ∃ x ∈ l, x < t) := by
  induction l with
  | nil => intro M t; simp
  | cons a l ih =>
    intro M t
    rw [List.foldl_cons, ih]
    simp only [List.mem_cons, exists_eq_or_imp, Nat.min_def]
    constructor
    · rintro (h | h)
      · split at h
        · exact Or.inl h
        · exact Or.inr (Or.inl h)
      · exact Or.inr (Or.inr h)
    · rintro (h | h | h)
      · left; split <;> omega
      · left; split <;> omega
      · exact Or.inr h

theorem deriv_fold_spec (row : Nat → Nat) (sample M : Nat) :
    ∀ n : Nat,
      (List.range n).foldl deriv_body ⟨row, sample, M⟩ =
        { row := fun i => if i < n then ref_v row sample i else row i
          v := ref_v row sample n
          min := ((List.range n).map (ref_d row sample)).foldl min M } := by
  intro n
  induction n with
  | zero => simp [ref_v]
  | succ n ih =>
    rw [List.range_succ, List.foldl_append, ih]
    simp only [List.foldl_cons, List.foldl_nil, deriv_body, List.map_append, List.map_cons,
      List.map_nil, List.foldl_append, lt_irrefl, if_false]
    congr 1
    · funext i
      by_cases h : i = n
      · subst h; simp
      · simp only [Function.update, h]
        by_cases h2 : i < n
        · simp [h2, Nat.lt_succ_of_lt h2]
        · simp [h2, show ¬ i < n + 1 by omega]
    · simp only [ref_d, ref_v, Nat.min_def]
      split_ifs <;> omega

theorem deriv_loop_spec (row : Nat → Nat) (sample : Nat) :
    (deriv_loop row sample).row = (fun i => if i < N_DERIV then ref_v row sample i else row i) ∧
    ((deriv_loop row sample).min < 2 ↔ ref_min row sample < 2) ∧
    (ref_min row sample < 2 ↔ ∃ i, i < N_DERIV ∧ ref_d row sample i < 2) := by
  have hex : (∃ x ∈ (List.range N_DERIV).map (ref_d row sample), x < 2) ↔
      ∃ i, i < N_DERIV ∧ ref_d row sample i < 2 := by
    simp [List.mem_map, List.mem_range]
  have hmin : ref_min row sample < 2 ↔ ∃ i, i < N_DERIV ∧ ref_d row sample i < 2 := by
    rw [ref_min, foldl_min_lt, hex]
    constructor
    · rintro (h | h)
      · exact ⟨0, by decide, h⟩
      · exact h
    · exact Or.inr
  refine ⟨?_, ?_, hmin⟩
  · rw [deriv_loop, deriv_fold_spec]
  · rw [hmin, deriv_loop, deriv_fold_spec]
    simp only []
    rw [foldl_min_lt, hex]
    constructor
    · rintro (h | h)
      · simp [WORD] at h
      · exact h
    · exact Or.inr

theorem add_sample_reject (st : State) (source sample : Nat)
    (h : (deriv_loop (st.deriv source) sample).min < 2) :
    add_sample st source sample =
      some { st with
        deriv := Function.update st.deriv source (deriv_loop (st.deriv source) sample).row } := by
  simp only [add_sample, if_pos h]

theorem add_sample_accept (st : State) (source sample : Nat)
    (h : ¬ (deriv_loop (st.deriv source) sample).min < 2)
    (hp : 0 ≤ st.pool_ind source ∧ st.pool_ind source < NR_POOLS) :
    add_sample st source sample =
      some { st with
        deriv := Function.update st.deriv source (deriv_loop (st.deriv source) sample).row
        pool_ctx := (Function.update st.pool_ctx (st.pool_ind source).toNat
          (st.pool_ctx (st.pool_ind source).toNat ++ word_bytes 4 sample))
        samples := if st.pool_ind source = 0 then (st.samples + 1) % WORD else st.samples
        pool_ind := Function.update st.pool_ind source ((st.pool_ind source + 1) % 32) } := by
  have hmod : (if st.pool_ind source + 1 ≥ (NR_POOLS : Int) then 0 else st.pool_ind source + 1) =
      (st.pool_ind source + 1) % 32 := by
    simp only [NR_POOLS] at hp ⊢
    split <;> omega
  simp only [add_sample, if_neg h, ge_iff_le, not_and, not_lt, SHA256_Update]
  rw [if_neg (by intro hc; exact absurd (hc hp.1) (by omega))]
  simp only [ge_iff_le] at hmod
  rw [hmod]

/-- C8: for every state with a valid pool index for `source`, the test `min < 2` of
`add_sample` agrees with the reference minimum, `add_sample` returns,
the sample is accepted (the pool index of the source advances) exactly when the
reference minimum `min(d_0, ..., d_15)` is at least 2, that is when every
`d_i = |v_i - deriv[src][i]|` is at least 2, and in both cases `deriv[src][i]`
becomes `v_i` for every `i < 16`, nothing else of `deriv` changing. -/
theorem filter_matches_reference (st : State) (source sample : Nat)
    (hp : 0 ≤ st.pool_ind source ∧ st.pool_ind source < NR_POOLS) :
    ((deriv_loop (st.deriv source) sample).min < 2 ↔ ref_min (st.deriv source) sample < 2) ∧
    ∃ st1, add_sample st source sample = some st1 ∧
      (st1.pool_ind source ≠ st.pool_ind source ↔ 2 ≤ ref_min (st.deriv source) sample) ∧
      (2 ≤ ref_min (st.deriv source) sample ↔
        ∀ i, i < N_DERIV → 2 ≤ ref_d (st.deriv source) sample i) ∧
      (∀ i, i < N_DERIV → st1.deriv source i = ref_v (st.deriv source) sample i) ∧
      (∀ i, N_DERIV ≤ i → st1.deriv source i = st.deriv source i) ∧
      (∀ s, s ≠ source → st1.deriv s = st.deriv s) := by
  obtain ⟨hrow, hmin, href⟩ := deriv_loop_spec (st.deriv source) sample
  refine ⟨hmin, ?_⟩
  have hall : 2 ≤ ref_min (st.deriv source) sample ↔
      ∀ i, i < N_DERIV → 2 ≤ ref_d (st.deriv source) sample i := by
    rw [← Nat.not_lt, href]
    constructor
    · intro h i hi
      by_contra hc
      exact h ⟨i, hi, by omega⟩
    · rintro h ⟨i, hi, hlt⟩
      have := h i hi
      omega
  by_cases h : (deriv_loop (st.deriv source) sample).min < 2
  · refine ⟨_, add_sample_reject st source sample h, ?_, hall, ?_, ?_, ?_⟩
    · have h2 : ref_min (st.deriv source) sample < 2 := hmin.mp h
      constructor
      · intro hne; exact absurd rfl hne
      · intro hge; omega
    · intro i hi
      simp [hrow, hi]
    · intro i hi
      simp [hrow, Nat.not_lt.mpr hi]
    · intro s hs
      simp [Function.update, hs]
  · refine ⟨_, add_sample_accept st source sample h hp, ?_, hall, ?_, ?_, ?_⟩
    · have h2 : ¬ ref_min (st.deriv source) sample < 2 := fun hc => h (hmin.mpr hc)
      constructor
      · intro _; omega
      · intro _
        simp only [Function.update_same]
        simp only [NR_POOLS] at hp
        omega
    · intro i hi
      simp [hrow, hi]
    · intro i hi
      simp [hrow, Nat.not_lt.mpr hi]
    · intro s hs
      simp [Function.update, hs]

theorem add_samples_pool_ind (source : Nat) :
    ∀ (l : List Nat) (st : State),
      (0 ≤ st.pool_ind source ∧ st.pool_ind source < NR_POOLS) →
      ∃ st2, add_samples st source l = some st2 ∧
        st2.pool_ind source =
          (st.pool_ind source + accepted_count (st.deriv source) l) % 32 ∧
        (∀ s, s ≠ source → st2.pool_ind s = st.pool_ind s) := by
  intro l
  induction l with
  | nil =>
    intro st hp
    refine ⟨st, rfl, ?_, fun _ _ => rfl⟩
    simp only [accepted_count, NR_POOLS] at hp ⊢
    omega
  | cons a l ih =>
    intro st hp
    by_cases h : (deriv_loop (st.deriv source) a).min < 2
    · obtain ⟨st2, h1, h2, h3⟩ := ih
        { st with deriv := Function.update st.deriv source (deriv_loop (st.deriv source) a).row } hp
      refine ⟨st2, ?_, ?_, h3⟩
      · rw [add_samples, add_sample_reject st source a h]
        exact h1
      · rw [h2]
        simp [accepted_count, h]
    · have hp2 : 0 ≤ (st.pool_ind source + 1) % 32 ∧ (st.pool_ind source + 1) % 32 < NR_POOLS := by
        simp only [NR_POOLS]; omega
      obtain ⟨st2, h1, h2, h3⟩ := ih
        { st with
          deriv := Function.update st.deriv source (deriv_loop (st.deriv source) a).row
          pool_ctx := (Function.update st.pool_ctx (st.pool_ind source).toNat
            (st.pool_ctx (st.pool_ind source).toNat ++ word_bytes 4 a))
          samples := if st.pool_ind source = 0 then (st.samples + 1) % WORD else st.samples
          pool_ind := Function.update st.pool_ind source ((st.pool_ind source + 1) % 32) }
        (by simpa using hp2)
      refine ⟨st2, ?_, ?_, ?_⟩
      · rw [add_samples, add_sample_accept st source a h hp]
        exact h1
      · rw [h2]
        simp only [Function.update_same, accepted_count, if_neg h]
        push_cast
        omega
      · intro s hs
        rw [h3 s hs]
        simp [Function.update, hs]

/-- The first sample 5 of a cold source against the reference filter. -/
theorem filter_matches_reference_witness :
    (0 ≤ (fresh toy).pool_ind 0 ∧ (fresh toy).pool_ind 0 < NR_POOLS) ∧
    ∃ st1, add_sample (fresh toy) 0 5 = some st1 ∧
      (st1.pool_ind 0 ≠ (fresh toy).pool_ind 0 ↔ 2 ≤ ref_min ((fresh toy).deriv 0) 5) ∧
      (2 ≤ ref_min ((fresh toy).deriv 0) 5 ↔
        ∀ i, i < N_DERIV → 2 ≤ ref_d ((fresh toy).deriv 0) 5 i) ∧
      (∀ i, i < N_DERIV → st1.deriv 0 i = ref_v ((fresh toy).deriv 0) 5 i) ∧
      (∀ i, N_DERIV ≤ i → st1.deriv 0 i = (fresh toy).deriv 0 i) ∧
      (∀ s, s ≠ 0 → st1.deriv s = (fresh toy).deriv s) :=
  ⟨by decide, (filter_matches_reference (fresh toy) 0 5 (by decide)).2⟩

/-- C9: for every source with a valid pool index and every sample, `add_sample`
returns; if the sample passes the test `min < 2`, its 4 bytes are appended to pool
`pool_ind[src]` only, `samples` is incremented (as a 32-bit word) exactly when that
index was 0, and `pool_ind[src]` becomes `(pool_ind[src] + 1) mod 32`, the other
sources keeping their index; if it fails the test, `pool_ind`, the pools and
`samples` are unchanged. Hence after any list of samples of the source its index is
the old one plus the number of accepted samples, modulo 32. -/
theorem accepted_sample_routing (st : State) (source sample : Nat)
    (hp : 0 ≤ st.pool_ind source ∧ st.pool_ind source < NR_POOLS) :
    (∃ st1, add_sample st source sample = some st1 ∧
      (¬ (deriv_loop (st.deriv source) sample).min < 2 →
        st1.pool_ctx = Function.update st.pool_ctx (st.pool_ind source).toNat
          (st.pool_ctx (st.pool_ind source).toNat ++ word_bytes 4 sample) ∧
        st1.samples = (if st.pool_ind source = 0 then (st.samples + 1) % WORD else st.samples) ∧
        (st.pool_ind source = 0 → st.samples + 1 < WORD → st1.samples = st.samples + 1) ∧
        st1.pool_ind source = (st.pool_ind source + 1) % 32 ∧
        (∀ s, s ≠ source → st1.pool_ind s = st.pool_ind s)) ∧
      ((deriv_loop (st.deriv source) sample).min < 2 →
        st1.pool_ind = st.pool_ind ∧ st1.pool_ctx = st.pool_ctx ∧ st1.samples = st.samples)) ∧
    (∀ l : List Nat, ∃ st2, add_samples st source l = some st2 ∧
      st2.pool_ind source = (st.pool_ind source + accepted_count (st.deriv source) l) % 32) := by
  constructor
  · by_cases h : (deriv_loop (st.deriv source) sample).min < 2
    · refine ⟨_, add_sample_reject st source sample h, fun hc => absurd h hc, fun _ => ?_⟩
      exact ⟨rfl, rfl, rfl⟩
    · refine ⟨_, add_sample_accept st source sample h hp, fun _ => ?_, fun hc => absurd hc h⟩
      refine ⟨rfl, rfl, ?_, ?_, ?_⟩
      · intro h0 hlt
        simp only [if_pos h0]
        exact Nat.mod_eq_of_lt hlt
      · simp
      · intro s hs
        simp [Function.update, hs]
  · intro l
    obtain ⟨st2, h1, h2, _⟩ := add_samples_pool_ind source l st hp
    exact ⟨st2, h1, h2⟩

/-- Three samples of a cold source of which the first and the last are accepted. -/
theorem accepted_sample_routing_witness :
    (0 ≤ (fresh toy).pool_ind 0 ∧ (fresh toy).pool_ind 0 < NR_POOLS) ∧
    ∃ st2, add_samples (fresh toy) 0 [5, 5, 1000] = some st2 ∧
      st2.pool_ind 0 =
        ((fresh toy).pool_ind 0 + accepted_count ((fresh toy).deriv 0) [5, 5, 1000]) % 32 :=
  ⟨by decide, (accepted_sample_routing (fresh toy) 0 5 (by decide)).2 [5, 5, 1000]⟩

theorem reseed_pool_ind (P : Prims) (st : State) : (reseed P st).pool_ind = st.pool_ind := by
  unfold reseed reseed_run
  split <;> rfl

theorem random_update_pool_ind_ok (P : Prims) (st : State) (source : Int) (buf : List Nat)
    (hs : 0 ≤ source ∧ source < P.RANDOM_SOURCES) (hok : pool_ind_ok st) :
    ∃ st1, random_update P st source buf = some st1 ∧ pool_ind_ok st1 := by
  obtain ⟨st2, h1, h2, h3⟩ := add_samples_pool_ind source.toNat buf st (hok source.toNat)
  refine ⟨reseed P st2, ?_, ?_⟩
  · rw [random_update, if_neg (by omega), h1]
    rfl
  · intro src
    rw [reseed_pool_ind]
    by_cases hsrc : src = source.toNat
    · subst hsrc
      rw [h2]
      simp only [NR_POOLS]
      omega
    · rw [h3 src hsrc]
      exact hok src

theorem call_pool_ind_ok (P : Prims) (st : State) (c : Call) (hv : c.valid P)
    (hok : pool_ind_ok st) : ∃ st1, call P st c = some st1 ∧ pool_ind_ok st1 := by
  cases c with
  | init =>
    refine ⟨_, rfl, ?_⟩
    intro src
    simp only [random_init]
    split
    · simp [NR_POOLS]
    · exact hok src
  | update source buf => exact random_update_pool_ind_ok P st source buf hv hok
  | putbytes buf =>
    refine ⟨_, rfl, ?_⟩
    intro src
    rw [random_putbytes, reseed_pool_ind]
    exact hok src
  | getbytes size =>
    refine ⟨_, rfl, ?_⟩
    intro src
    rw [random_getbytes_eq]
    have := (after_blocks_frame P st.random_key (nblocks size + 2) st).2.1
    show 0 ≤ (after_blocks P st.random_key (nblocks size + 2) st).pool_ind src ∧ _
    rw [this]
    exact hok src

theorem calls_pool_ind_ok (P : Prims) :
    ∀ (cs : List Call) (st : State), (∀ c ∈ cs, c.valid P) → pool_ind_ok st →
      ∃ st1, calls P st cs = some st1 ∧ pool_ind_ok st1 := by
  intro cs
  induction cs with
  | nil => intro st _ hok; exact ⟨st, rfl, hok⟩
  | cons c cs ih =>
    intro st hv hok
    obtain ⟨st1, h1, hok1⟩ := call_pool_ind_ok P st c (hv c (List.mem_cons_self c cs)) hok
    obtain ⟨st2, h2, hok2⟩ := ih st1 (fun d hd => hv d (List.mem_cons_of_mem c hd)) hok1
    exact ⟨st2, by rw [calls, h1]; exact h2, hok2⟩

theorem fresh_pool_ind_ok (P : Prims) : pool_ind_ok (fresh P) := by
  intro src
  simp [fresh, random_init, boot, NR_POOLS]

/-- C10: for every finite sequence of `random_init`, `random_update` (with a source in
range), `random_putbytes` and `random_getbytes` calls on a fresh engine, after every
step the calls so far have returned (no panic and no failed assertion, in
particular not the one on `pool_nr` in `add_sample`) and every `pool_ind[src]` lies
in `[0, 32)`. -/
theorem pool_ind_always_in_range (P : Prims) (cs : List Call) (hv : ∀ c ∈ cs, c.valid P) :
    ∀ k : Nat, ∃ st, calls P (fresh P) (cs.take k) = some st ∧
      ∀ src : Nat, 0 ≤ st.pool_ind src ∧ st.pool_ind src < NR_POOLS := by
  intro k
  exact calls_pool_ind_ok P (cs.take k) (fresh P)
    (fun c hc => hv c (List.mem_of_mem_take hc)) (fresh_pool_ind_ok P)

/-- The invariant along a sequence of five calls on the small instance. -/
theorem pool_ind_always_in_range_witness :
    (∀ c ∈ sample_calls, c.valid toy) ∧
    ∀ k : Nat, ∃ st, calls toy (fresh toy) (sample_calls.take k) = some st ∧
      ∀ src : Nat, 0 ≤ st.pool_ind src ∧ st.pool_ind src < NR_POOLS :=
  ⟨by decide, pool_ind_always_in_range toy sample_calls (by decide)⟩

/-! ## Frame properties of the absorbing calls -/

theorem reseed_frame (P : Prims) (st : State) :
    (reseed P st).count_lo = st.count_lo ∧ (reseed P st).count_hi = st.count_hi ∧
    (reseed P st).deriv = st.deriv ∧ (reseed P st).pool_ind = st.pool_ind := by
  unfold reseed reseed_run
  split <;> exact ⟨rfl, rfl, rfl, rfl⟩

theorem reseed_got_seeded (P : Prims) (st : State) (h : random_isseeded st = 1) :
    random_isseeded (reseed P st) = 1 := by
  unfold reseed reseed_run
  split
  · exact h
  · simp [random_isseeded]

theorem add_sample_frame (st st1 : State) (source sample : Nat)
    (h : add_sample st source sample = some st1) :
    st1.count_lo = st.count_lo ∧ st1.count_hi = st.count_hi ∧ st1.got_seeded = st.got_seeded ∧
    st1.random_key = st.random_key ∧ st1.reseed_count = st.reseed_count := by
  unfold add_sample at h
  simp only [] at h
  split at h
  · cases h; exact ⟨rfl, rfl, rfl, rfl, rfl⟩
  · split at h
    · cases h
    · cases h; exact ⟨rfl, rfl, rfl, rfl, rfl⟩

theorem add_samples_frame (source : Nat) :
    ∀ (l : List Nat) (st st1 : State), add_samples st source l = some st1 →
      st1.count_lo = st.count_lo ∧ st1.count_hi = st.count_hi ∧
      st1.got_seeded = st.got_seeded ∧ st1.random_key = st.random_key ∧
      st1.reseed_count = st.reseed_count := by
  intro l
  induction l with
  | nil => intro st st1 h; cases h; exact ⟨rfl, rfl, rfl, rfl, rfl⟩
  | cons a l ih =>
    intro st st1 h
    rw [add_samples] at h
    cases h2 : add_sample st source a with
    | none => rw [h2] at h; cases h
    | some st2 =>
      rw [h2] at h
      obtain ⟨a1, a2, a3, a4, a5⟩ := add_sample_frame st st2 source a h2
      obtain ⟨b1, b2, b3, b4, b5⟩ := ih st2 st1 h
      exact ⟨b1.trans a1, b2.trans a2, b3.trans a3, b4.trans a4, b5.trans a5⟩

theorem random_update_some (P : Prims) (st st1 : State) (source : Int) (buf : List Nat)
    (h : random_update P st source buf = some st1) :
    ∃ st2, add_samples st source.toNat buf = some st2 ∧ st1 = reseed P st2 := by
  unfold random_update at h
  split at h
  · cases h
  · cases h2 : add_samples st source.toNat buf with
    | none => rw [h2] at h; cases h
    | some st2 => rw [h2] at h; cases h; exact ⟨st2, rfl, rfl⟩

theorem call_seeded (P : Prims) (st st1 : State) (c : Call)
    (hs : random_isseeded st = 1) (h : call P st c = some st1) : random_isseeded st1 = 1 := by
  cases c with
  | init => cases h; exact hs
  | update source buf =>
    obtain ⟨st2, h2, rfl⟩ := random_update_some P st st1 source buf h
    apply reseed_got_seeded
    have := (add_samples_frame source.toNat buf st st2 h2).2.2.1
    simpa [random_isseeded, this] using hs
  | putbytes buf =>
    cases h
    exact reseed_got_seeded P _ hs
  | getbytes size =>
    cases h
    rw [random_getbytes_eq]
    have := (after_blocks_frame P st.random_key (nblocks size + 2) st).2.2.2.2.1
    simp only [random_isseeded] at hs ⊢
    rw [this]
    exact hs

theorem calls_seeded (P : Prims) :
    ∀ (cs : List Call) (st st1 : State), random_isseeded st = 1 → calls P st cs = some st1 →
      random_isseeded st1 = 1 := by
  intro cs
  induction cs with
  | nil => intro st st1 hs h; cases h; exact hs
  | cons c cs ih =>
    intro st st1 hs h
    rw [calls] at h
    cases h2 : call P st c with
    | none => rw [h2] at h; cases h
    | some st2 =>
      rw [h2] at h
      exact ih st2 st1 (call_seeded P st st2 c hs h2) h

/-- C12: for every state in which `random_isseeded` returns 1, it still returns 1 after
every call that returns: after `random_init`, `random_putbytes`, `random_getbytes`,
after `random_update` (which returns whenever the source and the pool indices are
valid), and after every sequence of calls. -/
theorem seeded_is_monotone (P : Prims) (st : State) (hs : random_isseeded st = 1) :
    (∀ (c : Call) (st1 : State), call P st c = some st1 → random_isseeded st1 = 1) ∧
    random_isseeded (random_init P st) = 1 ∧
    (∀ buf, random_isseeded (random_putbytes P st buf) = 1) ∧
    (∀ size, random_isseeded (random_getbytes P st size).1 = 1) ∧
    (∀ (source : Int) (buf : List Nat), 0 ≤ source ∧ source < P.RANDOM_SOURCES → pool_ind_ok st →
      ∃ st1, random_update P st source buf = some st1 ∧ random_isseeded st1 = 1) ∧
    (∀ (cs : List Call) (st1 : State), calls P st cs = some st1 → random_isseeded st1 = 1) := by
  refine ⟨fun c st1 h => call_seeded P st st1 c hs h, ?_, ?_, ?_, ?_, ?_⟩
  · exact call_seeded P st _ Call.init hs rfl
  · intro buf; exact call_seeded P st _ (Call.putbytes buf) hs rfl
  · intro size; exact call_seeded P st _ (Call.getbytes size) hs rfl
  · intro source buf hv hok
    obtain ⟨st1, h1, _⟩ := call_pool_ind_ok P st (Call.update source buf) hv hok
    exact ⟨st1, h1, call_seeded P st st1 (Call.update source buf) hs h1⟩
  · intro cs st1 h; exact calls_seeded P cs st st1 hs h

/-- C13: `reseed` does not change `count_lo` and `count_hi`; hence for every state the
counter after `random_putbytes` equals the counter before, and so does the counter
after every `random_update` that returns (it returns whenever the source and the
pool indices are valid), whether or not a reseed is triggered. -/
theorem absorb_keeps_counter (P : Prims) (st : State) :
    ((reseed P st).count_lo = st.count_lo ∧ (reseed P st).count_hi = st.count_hi) ∧
    (∀ buf, (random_putbytes P st buf).count_lo = st.count_lo ∧
      (random_putbytes P st buf).count_hi = st.count_hi) ∧
    (∀ source buf st1, random_update P st source buf = some st1 →
      st1.count_lo = st.count_lo ∧ st1.count_hi = st.count_hi) ∧
    (∀ (source : Int) (buf : List Nat), 0 ≤ source ∧ source < P.RANDOM_SOURCES → pool_ind_ok st →
      ∃ st1, random_update P st source buf = some st1 ∧
        st1.count_lo = st.count_lo ∧ st1.count_hi = st.count_hi) := by
  have hu : ∀ source buf st1, random_update P st source buf = some st1 →
      st1.count_lo = st.count_lo ∧ st1.count_hi = st.count_hi := by
    intro source buf st1 h
    obtain ⟨st2, h2, rfl⟩ := random_update_some P st st1 source buf h
    obtain ⟨a1, a2, _⟩ := add_samples_frame source.toNat buf st st2 h2
    obtain ⟨r1, r2, _⟩ := reseed_frame P st2
    exact ⟨r1.trans a1, r2.trans a2⟩
  refine ⟨⟨(reseed_frame P st).1, (reseed_frame P st).2.1⟩, ?_, hu, ?_⟩
  · intro buf
    rw [random_putbytes]
    exact ⟨(reseed_frame P _).1, (reseed_frame P _).2.1⟩
  · intro source buf hv hok
    obtain ⟨st1, h1, _⟩ := call_pool_ind_ok P st (Call.update source buf) hv hok
    exact ⟨st1, h1, hu source buf st1 h1⟩

/-! ## The sample credit and the bits of the reseed count -/

theorem putbytes_no_reseed (P : Prims) (st : State) (buf : List Nat)
    (h : (st.samples + buf.length * 8 % WORD) % WORD < MIN_SAMPLES) :
    random_putbytes P st buf =
      { st with
        pool_ctx := Function.update st.pool_ctx 0 (SHA256_Update (st.pool_ctx 0) buf)
        samples := (st.samples + buf.length * 8 % WORD) % WORD } := by
  rw [random_putbytes, reseed_below_threshold P _ h]

theorem putbytes_reseeds (P : Prims) (st : State) (buf : List Nat)
    (h : MIN_SAMPLES ≤ (st.samples + buf.length * 8 % WORD) % WORD) :
    (random_putbytes P st buf).samples = 0 ∧
    (random_putbytes P st buf).reseed_count = (st.reseed_count + 1) % WORD := by
  obtain ⟨k, _, _, hrun⟩ := reseed_run_spec P
    { st with
      pool_ctx := Function.update st.pool_ctx 0 (SHA256_Update (st.pool_ctx 0) buf)
      samples := (st.samples + buf.length * 8 % WORD) % WORD } h
  rw [random_putbytes, reseed, hrun]
  exact ⟨rfl, rfl⟩

/-- C11, the code at the failing input: `random_putbytes` of 12 bytes on a fresh engine
leaves `samples = 96` without a reseed; a following `random_putbytes` of `2^29 - 1`
bytes adds the 32-bit credit `2^32 - 8`, so `samples` wraps down to 88, below its
value before the call, and no reseed is performed (`reseed_count` stays 0). -/
theorem putbytes_samples_wrap_down (P : Prims) :
    (random_putbytes P (fresh P) twelve_bytes).samples = 96 ∧
    (random_putbytes P (fresh P) twelve_bytes).reseed_count = 0 ∧
    wrapping_buffer.length = 536870911 ∧
    (random_putbytes P (random_putbytes P (fresh P) twelve_bytes) wrapping_buffer).samples = 88 ∧
    (random_putbytes P (random_putbytes P (fresh P) twelve_bytes) wrapping_buffer).reseed_count
      = 0 := by
  have hl1 : twelve_bytes.length = 12 := by rw [twelve_bytes, List.length_replicate]
  have hl2 : wrapping_buffer.length = 536870911 := by
    rw [wrapping_buffer, List.length_replicate]
  have h1 : ((fresh P).samples + twelve_bytes.length * 8 % WORD) % WORD = 96 := by
    rw [hl1]; rfl
  rw [putbytes_no_reseed P (fresh P) twelve_bytes (by rw [h1]; decide)]
  have h2 : (((fresh P).samples + twelve_bytes.length * 8 % WORD) % WORD +
      wrapping_buffer.length * 8 % WORD) % WORD = 88 := by
    rw [h1, hl2]; rfl
  rw [putbytes_no_reseed P _ wrapping_buffer (by
    show (((fresh P).samples + twelve_bytes.length * 8 % WORD) % WORD +
      wrapping_buffer.length * 8 % WORD) % WORD < MIN_SAMPLES
    rw [h2]; decide)]
  exact ⟨h1, rfl, hl2, h2, rfl⟩

/-- C18 (as amended): during a reseed with incremented count `r`, the loop over
`i = 1, ..., 31` drains pool `i` while bit `i-1` of `r` is clear and stops at the
first `i` whose bit `i-1` is set: the printed pools are `1, ..., k`, bits `0..k-1` of
`r` are clear and, when the loop stopped before `i = 31`, bit `k` is set; so pool
`i >= 1` is drained if and only if bits `0..i-1` of `r` are all clear. -/
theorem reseed_stops_at_first_set_bit (P : Prims) (st : State) (h : MIN_SAMPLES ≤ st.samples) :
    ∃ k, k < NR_POOLS ∧
      (reseed_run P st).2 = List.range' 1 k ∧
      (∀ j, j < k → ((reseed P st).reseed_count).testBit j = false) ∧
      (k + 1 < NR_POOLS → ((reseed P st).reseed_count).testBit k = true) ∧
      (∀ i, i ∈ (reseed_run P st).2 ↔
        (1 ≤ i ∧ i < NR_POOLS ∧ ∀ j, j < i → ((reseed P st).reseed_count).testBit j = false)) := by
  obtain ⟨k, hk, hiff, hrun⟩ := reseed_run_spec P st h
  have hrc : (reseed P st).reseed_count = (st.reseed_count + 1) % WORD := by
    rw [reseed, hrun]
  refine ⟨k, hk, by rw [hrun], ?_, ?_, ?_⟩
  · rw [hrc]
    exact (mod_two_pow_eq_zero_iff _ _).mp ((hiff k).mp (le_refl k)).2
  · intro hlt
    rw [hrc]
    have hno : ¬ ((st.reseed_count + 1) % WORD % 2 ^ (k + 1) = 0) := by
      intro hz
      have := (hiff (k + 1)).mpr ⟨hlt, hz⟩
      omega
    rw [mod_two_pow_eq_zero_iff] at hno
    push_neg at hno
    obtain ⟨j, hj, hset⟩ := hno
    have hlow := (mod_two_pow_eq_zero_iff _ _).mp ((hiff k).mp (le_refl k)).2
    have hjk : j = k := by
      by_contra hne
      exact hset (hlow j (by omega))
    subst hjk
    simpa using hset
  · intro i
    rw [hrun, hrc]
    simp only [List.mem_range'_1]
    rw [← mod_two_pow_eq_zero_iff]
    constructor
    · rintro ⟨h1, h2⟩
      have := (hiff i).mp (by omega)
      exact ⟨h1, this.1, this.2⟩
    · rintro ⟨h1, h2, h3⟩
      have := (hiff i).mpr ⟨h2, h3⟩
      omega

/-- C18 fails as stated: with `r = 1` bit 0 is set and pool 1 is not drained; with
`r = 2` bit 0 is clear and pool 1 is drained. -/
theorem reseed_bits_counterexample :
    ((reseed toy first_reseed).reseed_count = 1 ∧ Nat.testBit 1 0 = true ∧
      1 ∉ (reseed_run toy first_reseed).2) ∧
    ((reseed toy second_reseed).reseed_count = 2 ∧ Nat.testBit 2 0 = false ∧
      1 ∈ (reseed_run toy second_reseed).2) ∧
    ¬ (1 ∈ (reseed_run toy second_reseed).2 ↔
        ∀ j, j < 1 → ((reseed toy second_reseed).reseed_count).testBit j = true) := by
  refine ⟨by decide, by decide, ?_⟩
  intro h
  have := h.mp (by decide) 0 (by decide)
  revert this
  decide

theorem block_value_counter_block (lo hi : Nat) (hlo : lo < WORD) (hhi : hi < WORD) :
    block_value (counter_block lo hi) = lo + WORD * hi := by
  simp only [WORD] at hlo hhi
  simp only [counter_block, block_value, word_bytes, AES_BLOCKSIZE, WORD, List.range,
    List.range.loop, List.map, List.replicate, List.cons_append, List.nil_append, List.foldr]
  norm_num
  omega

theorem data_block_counter (P : Prims) (key : List Nat) (st : State)
    (hlo : st.count_lo < WORD) (hhi : st.count_hi < WORD) :
    (data_block P key st).2.count_lo < WORD ∧ (data_block P key st).2.count_hi < WORD ∧
    counter (data_block P key st).2 = (counter st + 1) % 2 ^ 64 := by
  simp only [data_block, counter, WORD] at *
  refine ⟨Nat.mod_lt _ (by decide), ?_, ?_⟩
  · split
    · exact Nat.mod_lt _ (by decide)
    · exact hhi
  · split <;> omega

theorem after_blocks_counter (P : Prims) (key : List Nat) :
    ∀ (j : Nat) (st : State), st.count_lo < WORD → st.count_hi < WORD →
      (after_blocks P key j st).count_lo < WORD ∧ (after_blocks P key j st).count_hi < WORD ∧
      counter (after_blocks P key j st) = (counter st + j) % 2 ^ 64 := by
  intro j
  induction j with
  | zero =>
    intro st hlo hhi
    refine ⟨hlo, hhi, ?_⟩
    simp only [after_blocks, counter, WORD] at *
    omega
  | succ j ih =>
    intro st hlo hhi
    obtain ⟨a1, a2, a3⟩ := data_block_counter P key st hlo hhi
    obtain ⟨b1, b2, b3⟩ := ih (data_block P key st).2 a1 a2
    refine ⟨b1, b2, ?_⟩
    simp only [after_blocks]
    rw [b3, a3]
    omega

/-- C19 (as amended): the counter is the 64-bit integer `count_lo + 2^32 * count_hi`,
incremented with carry from `count_lo` into `count_hi` only. The plaintext block
holds it in its low 8 bytes and zeros in its high 8 bytes; the block of one call of
`data_block` is one greater modulo `2^64` than the block of the previous call; no
plaintext block repeats within `2^64` generated blocks, and after `2^64` blocks the
first one comes back. -/
theorem counter_carries_across_64_bits (P : Prims) (key : List Nat) (st : State)
    (hlo : st.count_lo < WORD) (hhi : st.count_hi < WORD) :
    block_value (plaintext st) = counter st ∧
    (plaintext st).drop 8 = List.replicate 8 0 ∧
    block_value (plaintext (data_block P key st).2) = (block_value (plaintext st) + 1) % 2 ^ 64 ∧
    (∀ j k, j < 2 ^ 64 → k < 2 ^ 64 → j ≠ k →
      plaintext (after_blocks P key j st) ≠ plaintext (after_blocks P key k st)) ∧
    plaintext (after_blocks P key (2 ^ 64) st) = plaintext st := by
  have hv : ∀ s : State, s.count_lo < WORD → s.count_hi < WORD →
      block_value (plaintext s) = counter s := fun s h1 h2 =>
    block_value_counter_block s.count_lo s.count_hi h1 h2
  have hc : counter st < 2 ^ 64 := by
    simp only [counter, WORD] at *; omega
  refine ⟨hv st hlo hhi, ?_, ?_, ?_, ?_⟩
  · simp [plaintext, counter_block, word_bytes, AES_BLOCKSIZE, List.range, List.range.loop]
  · obtain ⟨a1, a2, a3⟩ := data_block_counter P key st hlo hhi
    rw [hv _ a1 a2, a3, hv st hlo hhi]
  · intro j k hj hk hne heq
    obtain ⟨a1, a2, a3⟩ := after_blocks_counter P key j st hlo hhi
    obtain ⟨b1, b2, b3⟩ := after_blocks_counter P key k st hlo hhi
    have h := congrArg block_value heq
    rw [hv _ a1 a2, hv _ b1 b2, a3, b3] at h
    omega
  · obtain ⟨a1, a2, a3⟩ := after_blocks_counter P key (2 ^ 64) st hlo hhi
    have h0 : counter (after_blocks P key (2 ^ 64) st) = counter st := by
      rw [a3]; omega
    simp only [counter, WORD] at h0 a1 a2 hlo hhi
    have e1 : (after_blocks P key (2 ^ 64) st).count_lo = st.count_lo := by omega
    have e2 : (after_blocks P key (2 ^ 64) st).count_hi = st.count_hi := by omega
    simp only [plaintext, e1, e2]

/-- The increment at the last 64-bit counter value. -/
theorem counter_carries_across_64_bits_witness :
    last_count.count_lo < WORD ∧ last_count.count_hi < WORD ∧
    block_value (plaintext (data_block toy last_count.random_key last_count).2) =
      (block_value (plaintext last_count) + 1) % 2 ^ 64 :=
  ⟨by decide, by decide,
    (counter_carries_across_64_bits toy last_count.random_key last_count
      (by decide) (by decide)).2.2.1⟩

/-- C19 fails as stated: at the counter value `2^64 - 1` the next plaintext block is
the all-zero block of the fresh engine, of value 0, not `2^64`. -/
theorem counter_128_counterexample :
    block_value (plaintext last_count) = 2 ^ 64 - 1 ∧
    block_value (plaintext (data_block toy last_count.random_key last_count).2) = 0 ∧
    ¬ (block_value (plaintext (data_block toy last_count.random_key last_count).2) =
        (block_value (plaintext last_count) + 1) % 2 ^ 128) ∧
    plaintext (data_block toy last_count.random_key last_count).2 = plaintext (fresh toy) := by
  decide

/-! ## Sequences of samples through the filter -/

theorem add_sample_deriv (st st1 : State) (source x : Nat)
    (h : add_sample st source x = some st1) :
    st1.deriv source = (deriv_loop (st.deriv source) x).row := by
  unfold add_sample at h
  simp only [] at h
  split at h
  · cases h; simp
  · split at h
    · cases h
    · cases h; simp

theorem add_samples_deriv (source : Nat) :
    ∀ (l : List Nat) (st st1 : State), add_samples st source l = some st1 →
      st1.deriv source = row_after (st.deriv source) l := by
  intro l
  induction l with
  | nil => intro st st1 h; cases h; rfl
  | cons a l ih =>
    intro st st1 h
    rw [add_samples] at h
    cases h2 : add_sample st source a with
    | none => rw [h2] at h; cases h
    | some st2 =>
      rw [h2] at h
      rw [ih st2 st1 h, add_sample_deriv st st2 source a h2]
      rfl

theorem row_after_append (l : List Nat) :
    ∀ (row : Nat → Nat) (x : Nat),
      row_after row (l ++ [x]) = (deriv_loop (row_after row l) x).row := by
  induction l with
  | nil => intro row x; rfl
  | cons a l ih => intro row x; exact ih (deriv_loop row a).row x

theorem row_after_range_succ (row : Nat → Nat) (s : Nat → Nat) (t : Nat) :
    row_after row ((List.range (t + 1)).map s) =
      (deriv_loop (row_after row ((List.range t).map s)) (s t)).row := by
  rw [List.range_succ, List.map_append, List.map_singleton, row_after_append]

theorem deriv_row_lt (row : Nat → Nat) (x i : Nat) (hi : i < N_DERIV) :
    (deriv_loop row x).row i = ref_v row x i := by
  rw [(deriv_loop_spec row x).1]
  simp [hi]

theorem rejected_of_small (row : Nat → Nat) (x i : Nat) (hi : i < N_DERIV)
    (h : ref_d row x i < 2) : (deriv_loop row x).min < 2 := by
  obtain ⟨_, h1, h2⟩ := deriv_loop_spec row x
  exact h1.mpr (h2.mpr ⟨i, hi, h⟩)

theorem rejected_after_of_min (st : State) (source : Nat) (l : List Nat) (x : Nat)
    (hp : 0 ≤ st.pool_ind source ∧ st.pool_ind source < NR_POOLS)
    (h : (deriv_loop (row_after (st.deriv source) l) x).min < 2) :
    rejected_after st source l x := by
  obtain ⟨st1, h1, _, _⟩ := add_samples_pool_ind source l st hp
  rw [← add_samples_deriv source l st st1 h1] at h
  exact ⟨st1, _, h1, add_sample_reject st1 source x h, rfl, rfl, rfl⟩

theorem accepted_after_of_min (st : State) (source : Nat) (l : List Nat) (x : Nat)
    (hp : 0 ≤ st.pool_ind source ∧ st.pool_ind source < NR_POOLS)
    (h : ¬ (deriv_loop (row_after (st.deriv source) l) x).min < 2) :
    accepted_after st source l x := by
  obtain ⟨st1, h1, h2, _⟩ := add_samples_pool_ind source l st hp
  rw [← add_samples_deriv source l st st1 h1] at h
  have hp1 : 0 ≤ st1.pool_ind source ∧ st1.pool_ind source < NR_POOLS := by
    rw [h2]; simp only [NR_POOLS]; omega
  refine ⟨st1, _, h1, add_sample_accept st1 source x h hp1, ?_, ?_⟩
  · simp
  · simp

theorem not_rejected_of_accepted (st : State) (source : Nat) (l : List Nat) (x : Nat)
    (h : accepted_after st source l x) : ¬ rejected_after st source l x := by
  obtain ⟨a1, a2, ha1, ha2, ha3, _⟩ := h
  rintro ⟨b1, b2, hb1, hb2, hb3, _⟩
  rw [ha1] at hb1; cases hb1
  rw [ha2] at hb2; cases hb2
  have := congrFun hb3 source
  rw [ha3] at this
  omega

/-! ### A cold source -/

theorem ref_v_cold (x : Nat) : ∀ i, ref_v (fun _ => 0) x i = x := by
  intro i
  induction i with
  | zero => rfl
  | succ i ih => simp [ref_v, ih]

theorem cold_min (x : Nat) : (deriv_loop (fun _ => 0) x).min < 2 ↔ x < 2 := by
  obtain ⟨_, h1, h2⟩ := deriv_loop_spec (fun _ => 0) x
  rw [h1, h2]
  constructor
  · rintro ⟨i, _, hi⟩
    rwa [ref_d, ref_v_cold] at hi
  · intro h
    exact ⟨0, by decide, by rwa [ref_d, ref_v_cold]⟩

theorem repeat_min (row : Nat → Nat) (x : Nat) (h : row 0 = x) :
    (deriv_loop row x).min < 2 := by
  apply rejected_of_small row x 0 (by decide)
  simp [ref_d, ref_v, h]

theorem row_after_replicate_zero (x : Nat) :
    ∀ (k : Nat) (row : Nat → Nat), 1 ≤ k → row_after row (List.replicate k x) 0 = x := by
  intro k
  induction k with
  | zero => intro row h; omega
  | succ k ih =>
    intro row _
    rw [show List.replicate (k + 1) x = List.replicate k x ++ [x] from
      (List.replicate_succ' ..), row_after_append, deriv_row_lt _ _ _ (by decide)]
    rfl

theorem accepted_count_repeat (x : Nat) :
    ∀ (k : Nat) (row : Nat → Nat), row 0 = x → accepted_count row (List.replicate k x) = 0 := by
  intro k
  induction k with
  | zero => intro row _; rfl
  | succ k ih =>
    intro row h
    rw [List.replicate_succ, accepted_count, if_pos (repeat_min row x h),
      ih _ (by rw [deriv_row_lt _ _ _ (by decide)]; rfl)]

/-- C15 (as amended): on a cold source (derivative row all zero, valid pool index) the
first occurrence of a sample `v` is accepted when `v >= 2` and rejected when `v` is
0 or 1; after any number `k >= 1` of occurrences the next occurrence of `v` is
rejected. So of sixteen occurrences exactly one is accepted when `v >= 2` and none
when `v < 2`. -/
theorem repeated_sample_cold_source (st : State) (source v : Nat)
    (hcold : st.deriv source = fun _ => 0)
    (hp : 0 ≤ st.pool_ind source ∧ st.pool_ind source < NR_POOLS) :
    (2 ≤ v → accepted_after st source [] v) ∧
    (v < 2 → rejected_after st source [] v) ∧
    (∀ k, 1 ≤ k → rejected_after st source (List.replicate k v) v) ∧
    accepted_count (st.deriv source) (List.replicate 16 v) = (if 2 ≤ v then 1 else 0) := by
  refine ⟨?_, ?_, ?_, ?_⟩
  · intro hv
    apply accepted_after_of_min st source [] v hp
    rw [hcold, row_after, cold_min]
    omega
  · intro hv
    apply rejected_after_of_min st source [] v hp
    rw [hcold, row_after, cold_min]
    exact hv
  · intro k hk
    apply rejected_after_of_min st source _ v hp
    exact repeat_min _ v (row_after_replicate_zero v k _ hk)
  · rw [hcold, show (16 : Nat) = 15 + 1 from rfl, List.replicate_succ, accepted_count,
      accepted_count_repeat v 15 _ (by rw [deriv_row_lt _ _ _ (by decide)]; rfl)]
    by_cases hv : 2 ≤ v
    · rw [if_neg (by rw [cold_min]; omega), if_pos hv]
    · rw [if_pos (by rw [cold_min]; omega), if_neg hv]

theorem fresh_cold (P : Prims) (source : Nat) : (fresh P).deriv source = fun _ => 0 := by
  funext j
  simp [fresh, random_init, boot]

theorem fresh_pool_ind (P : Prims) (source : Nat) : (fresh P).pool_ind source = 0 := by
  simp [fresh, random_init, boot]

/-- The sample 5 repeated on source 0 of the fresh engine. -/
theorem repeated_sample_cold_source_witness :
    ((fresh toy).deriv 0 = fun _ => 0) ∧
    (0 ≤ (fresh toy).pool_ind 0 ∧ (fresh toy).pool_ind 0 < NR_POOLS) ∧
    (∀ k, 1 ≤ k → rejected_after (fresh toy) 0 (List.replicate k 5) 5) ∧
    accepted_count ((fresh toy).deriv 0) (List.replicate 16 5) = (if 2 ≤ 5 then 1 else 0) :=
  ⟨fresh_cold toy 0, by decide,
    (repeated_sample_cold_source (fresh toy) 0 5 (fresh_cold toy 0) (by decide)).2.2⟩

/-- C15 fails as stated: the first occurrence of the sample 0 on a cold source is
rejected. -/
theorem zero_sample_counterexample :
    ((fresh toy).deriv 0 = fun _ => 0) ∧
    rejected_after (fresh toy) 0 [] 0 ∧ ¬ accepted_after (fresh toy) 0 [] 0 := by
  have hr : rejected_after (fresh toy) 0 [] 0 := by
    apply rejected_after_of_min (fresh toy) 0 [] 0 (by decide)
    rw [fresh_cold, row_after, cold_min]
    decide
  exact ⟨fresh_cold toy 0, hr, fun ha => not_rejected_of_accepted _ _ _ _ ha hr⟩

/-! ### Ticks -/

theorem add_samples_all_rejected (source : Nat) :
    ∀ (l : List Nat) (st : State), accepted_count (st.deriv source) l = 0 →
      add_samples st source l =
        some { st with
          deriv := Function.update st.deriv source (row_after (st.deriv source) l) } := by
  intro l
  induction l with
  | nil =>
    intro st _
    simp [add_samples, row_after]
  | cons a l ih =>
    intro st h
    rw [accepted_count] at h
    have hrej : (deriv_loop (st.deriv source) a).min < 2 := by
      by_contra hc
      rw [if_neg hc] at h
      omega
    rw [if_pos hrej, Nat.zero_add] at h
    rw [add_samples, add_sample_reject st source a hrej]
    simp only [Option.some_bind]
    rw [ih _ (by simpa using h)]
    simp [row_after]

theorem accepted_count_chain :
    ∀ (l : List Nat) (row : Nat → Nat),
      List.Chain (fun a b => b ≤ a + 1 ∧ a ≤ b + 1) (row 0) l → accepted_count row l = 0 := by
  intro l
  induction l with
  | nil => intro row _; rfl
  | cons a l ih =>
    intro row h
    rw [List.chain_cons] at h
    have hrej : (deriv_loop row a).min < 2 := by
      apply rejected_of_small row a 0 (by decide)
      simp only [ref_d, ref_v]
      split <;> omega
    rw [accepted_count, if_pos hrej, Nat.zero_add]
    apply ih
    rw [deriv_row_lt _ _ _ (by decide)]
    exact h.2

theorem ticks_chain (a n : Nat) :
    List.Chain (fun a b => b ≤ a + 1 ∧ a ≤ b + 1) a (List.range' (a + 1) n) := by
  apply List.Chain.imp _ (List.chain_succ_range' a n 1)
  intro x y h
  omega

/-- What `random_update` does with the ticks 1000, ..., 1255 on a fresh engine. -/
theorem update_ticks (P : Prims) :
    ∃ st1, random_update P (fresh P) 0 (List.range' 1000 256) = some st1 ∧
      st1.samples = 1 ∧ random_isseeded st1 = 0 ∧ st1.reseed_count = 0 ∧
      st1.pool_ind 0 = 1 ∧ st1.pool_ctx 0 = word_bytes 4 1000 := by
  have hacc : ¬ (deriv_loop ((fresh P).deriv 0) 1000).min < 2 := by
    rw [fresh_cold, cold_min]; decide
  have hp : 0 ≤ (fresh P).pool_ind 0 ∧ (fresh P).pool_ind 0 < NR_POOLS := by
    rw [fresh_pool_ind]; decide
  have h1 := add_sample_accept (fresh P) 0 1000 hacc hp
  have hsrc : ¬ ((0 : Int) < 0 ∨ (0 : Int) ≥ P.RANDOM_SOURCES) := by
    have := P.sources_pos
    omega
  rw [random_update, if_neg hsrc]
  rw [show List.range' 1000 256 = 1000 :: List.range' (1000 + 1) 255 from rfl]
  rw [show (0 : Int).toNat = 0 from rfl, add_samples, h1, Option.some_bind]
  rw [add_samples_all_rejected 0 _ _ (accepted_count_chain _ _ (by
    simp only [Function.update_same]
    rw [deriv_row_lt _ _ _ (by decide)]
    exact ticks_chain 1000 255))]
  simp only [Option.map_some']
  refine ⟨_, rfl, ?_⟩
  rw [reseed_below_threshold P _ (by simp [fresh_pool_ind, fresh, random_init, boot, WORD, MIN_SAMPLES])]
  simp only [fresh_pool_ind]
  simp [fresh, random_init, boot, WORD, random_isseeded, SHA256_Init, NR_POOLS]
  simp [Function.update]

/-! ### Linear progressions -/

/-- From the third term on, a sequence whose consecutive terms differ by the same
amount `d`, upwards or downwards, is rejected at the second difference. -/
theorem constant_step_min (row : Nat → Nat) (s : Nat → Nat) (d N : Nat)
    (hstep : ∀ j, j < N → s (j + 1) = s j + d ∨ s j = s (j + 1) + d) :
    ∀ j, 2 ≤ j → j ≤ N →
      (deriv_loop (row_after row ((List.range j).map s)) (s j)).min < 2 := by
  intro j hj hjN
  obtain ⟨i, rfl⟩ : ∃ i, j = i + 2 := ⟨j - 2, by omega⟩
  apply rejected_of_small _ _ 1 (by decide)
  have h0 : row_after row ((List.range (i + 2)).map s) 0 = s (i + 1) := by
    rw [row_after_range_succ, deriv_row_lt _ _ _ (by decide)]
    rfl
  have h00 : row_after row ((List.range (i + 1)).map s) 0 = s i := by
    rw [row_after_range_succ, deriv_row_lt _ _ _ (by decide)]
    rfl
  have h1 : row_after row ((List.range (i + 2)).map s) 1 = d := by
    rw [row_after_range_succ, deriv_row_lt _ _ _ (by decide)]
    simp only [ref_v, h00]
    have := hstep i (by omega)
    split <;> omega
  have hs : s (i + 2) = s (i + 1) + d ∨ s (i + 1) = s (i + 2) + d := hstep (i + 1) (by omega)
  simp only [ref_d, ref_v, h0, h1]
  split_ifs <;> omega

/-! ### Polynomial progressions -/

theorem natAbs_sub_of_same_sign (a b : Int)
    (h : (0 ≤ a ∧ 0 ≤ b) ∨ (a ≤ 0 ∧ b ≤ 0)) :
    (if a.natAbs ≥ b.natAbs then a.natAbs - b.natAbs else b.natAbs - a.natAbs) =
      (a - b).natAbs := by
  split <;> omega

/-- While the differences of each order below `n` keep one sign along the terms
`s 0, ..., s T`, the value `v_i` of the derivative loop for the sample `s t` is the
absolute value of the difference of order `i` at `t - i`. -/
theorem ref_v_eq_fdiff (s : Nat → Nat) (n T : Nat) (hn : n ≤ N_DERIV)
    (hsign : ∀ k, k < n →
      (∀ t, t + k ≤ T → 0 ≤ fdiff s k t) ∨ (∀ t, t + k ≤ T → fdiff s k t ≤ 0)) :
    ∀ i, i ≤ n → ∀ t, i ≤ t → t ≤ T →
      ref_v (row_after (fun _ => 0) ((List.range t).map s)) (s t) i =
        (fdiff s i (t - i)).natAbs := by
  intro i
  induction i with
  | zero => intro _ t _ _; simp [ref_v, fdiff]
  | succ i ih =>
    intro hi t ht hT
    obtain ⟨u, rfl⟩ : ∃ u, t = u + 1 := ⟨t - 1, by omega⟩
    have hrow : row_after (fun _ => 0) ((List.range (u + 1)).map s) i =
        (fdiff s i (u - i)).natAbs := by
      rw [row_after_range_succ, deriv_row_lt _ _ _ (by simp only [N_DERIV] at hn ⊢; omega)]
      exact ih (by omega) u (by omega) (by omega)
    have hcur := ih (by omega) (u + 1) (by omega) hT
    rw [ref_v, hcur, hrow]
    have e1 : u + 1 - i = (u - i) + 1 := by omega
    have e2 : u + 1 - (i + 1) = u - i := by omega
    rw [e1, e2, fdiff]
    apply natAbs_sub_of_same_sign
    rcases hsign i (by omega) with h | h
    · exact Or.inl ⟨h _ (by omega), h _ (by omega)⟩
    · exact Or.inr ⟨h _ (by omega), h _ (by omega)⟩

theorem poly_min (s : Nat → Nat) (n T : Nat) (hn : n ≤ N_DERIV)
    (hpoly : ∀ t, t + n ≤ T → fdiff s n t = 0)
    (hsign : ∀ k, k < n →
      (∀ t, t + k ≤ T → 0 ≤ fdiff s k t) ∨ (∀ t, t + k ≤ T → fdiff s k t ≤ 0)) :
    ∀ t, N_DERIV ≤ t → t ≤ T →
      (deriv_loop (row_after (fun _ => 0) ((List.range t).map s)) (s t)).min < 2 := by
  intro t ht hT
  simp only [N_DERIV] at hn ht
  by_cases h0 : n = 0
  · subst h0
    have hz : ∀ u, u ≤ T → s u = 0 := by
      intro u hu
      have := hpoly u (by omega)
      simpa [fdiff] using this
    apply rejected_of_small _ _ 0 (by decide)
    obtain ⟨u, rfl⟩ : ∃ u, t = u + 1 := ⟨t - 1, by omega⟩
    have h00 : row_after (fun _ => 0) ((List.range (u + 1)).map s) 0 = s u := by
      rw [row_after_range_succ, deriv_row_lt _ _ _ (by decide)]
      rfl
    simp [ref_d, ref_v, h00, hz u (by omega), hz (u + 1) hT]
  · obtain ⟨m, rfl⟩ : ∃ m, n = m + 1 := ⟨n - 1, by omega⟩
    apply rejected_of_small _ _ m (by simp only [N_DERIV]; omega)
    rw [ref_d, ref_v_eq_fdiff s (m + 1) T (by simp only [N_DERIV]; omega) hsign (m + 1)
      (le_refl _) t (by omega) hT, hpoly _ (by omega)]
    decide

/-! ## Progressions through the filter -/

theorem add_samples_append (source : Nat) (x : Nat) :
    ∀ (l : List Nat) (st : State),
      add_samples st source (l ++ [x]) =
        (add_samples st source l).bind (fun st1 => add_sample st1 source x) := by
  intro l
  induction l with
  | nil =>
    intro st
    simp [add_samples]
  | cons a l ih =>
    intro st
    rw [List.cons_append, add_samples, add_samples, Option.bind_assoc]
    congr 1
    funext st1
    exact ih st1

/-- C20: for every prior derivative row of a source with a valid pool index and every
progression `s j = a + j*d` or `s j = a - j*d` (terms `0..N`, none below 0), fed
consecutively: for every term `j >= 2` the first difference is `d`, the previous
first difference kept in `deriv[src][1]` is `d`, the second difference is 0, the
term is rejected, and the state after terms `0..j` has the pool indices, `samples`
and pools of the state after the first two terms. -/
theorem linear_progression_rejected (st : State) (source : Nat) (s : Nat → Nat) (a d N : Nat)
    (hp : 0 ≤ st.pool_ind source ∧ st.pool_ind source < NR_POOLS)
    (hlin : (∀ j, j ≤ N → s j = a + j * d) ∨ (∀ j, j ≤ N → s j + j * d = a)) :
    ∀ j, 2 ≤ j → j ≤ N →
      ref_d (row_after (st.deriv source) ((List.range j).map s)) (s j) 0 = d ∧
      row_after (st.deriv source) ((List.range j).map s) 1 = d ∧
      ref_d (row_after (st.deriv source) ((List.range j).map s)) (s j) 1 = 0 ∧
      rejected_after st source ((List.range j).map s) (s j) ∧
      ∃ st2 st3, add_samples st source ((List.range 2).map s) = some st2 ∧
        add_samples st source ((List.range (j + 1)).map s) = some st3 ∧
        st3.pool_ind = st2.pool_ind ∧ st3.samples = st2.samples ∧ st3.pool_ctx = st2.pool_ctx := by
  have hstep : ∀ j, j < N → s (j + 1) = s j + d ∨ s j = s (j + 1) + d := by
    intro j hj
    have e : (j + 1) * d = j * d + d := by ring
    rcases hlin with h | h
    · left; rw [h (j + 1) (by omega), h j (by omega), e]; omega
    · right
      have h1 := h (j + 1) (by omega)
      have h2 := h j (by omega)
      rw [e] at h1
      omega
  have hrow0 : ∀ i, row_after (st.deriv source) ((List.range (i + 1)).map s) 0 = s i := by
    intro i
    rw [row_after_range_succ, deriv_row_lt _ _ _ (by decide)]
    rfl
  have hrow1 : ∀ i, i < N → row_after (st.deriv source) ((List.range (i + 2)).map s) 1 = d := by
    intro i hi
    rw [row_after_range_succ, deriv_row_lt _ _ _ (by decide)]
    simp only [ref_v, hrow0]
    have := hstep i hi
    split <;> omega
  have hrej : ∀ j, 2 ≤ j → j ≤ N → rejected_after st source ((List.range j).map s) (s j) :=
    fun j h2 hN => rejected_after_of_min st source _ _ hp
      (constant_step_min (st.deriv source) s d N hstep j h2 hN)
  have hkeep : ∀ m, m + 2 ≤ N → ∃ st2 st3, add_samples st source ((List.range 2).map s) = some st2 ∧
      add_samples st source ((List.range (m + 2 + 1)).map s) = some st3 ∧
      st3.pool_ind = st2.pool_ind ∧ st3.samples = st2.samples ∧ st3.pool_ctx = st2.pool_ctx := by
    intro m
    induction m with
    | zero =>
      intro hN
      obtain ⟨st1, st2, h1, h2, f1, f2, f3⟩ := hrej 2 (le_refl 2) hN
      refine ⟨st1, st2, h1, ?_, f1, f3, f2⟩
      rw [show 0 + 2 + 1 = 2 + 1 from rfl, List.range_succ, List.map_append, List.map_singleton,
        add_samples_append, h1, Option.some_bind]
      exact h2
    | succ m ih =>
      intro hN
      obtain ⟨st2, st3, g1, g2, g3, g4, g5⟩ := ih (by omega)
      obtain ⟨st1, st4, h1, h2, f1, f2, f3⟩ := hrej (m + 2 + 1) (by omega) (by omega)
      rw [g2] at h1
      have e := Option.some.inj h1
      subst e
      refine ⟨st2, st4, g1, ?_, f1.trans g3, f3.trans g4, f2.trans g5⟩
      rw [show m + 1 + 2 + 1 = (m + 2 + 1) + 1 by omega, List.range_succ (m + 2 + 1),
        List.map_append, List.map_singleton, add_samples_append, g2, Option.some_bind]
      exact h2
  intro j hj hjN
  obtain ⟨i, rfl⟩ : ∃ i, j = i + 2 := ⟨j - 2, by omega⟩
  have hs : s (i + 2) = s (i + 1) + d ∨ s (i + 1) = s (i + 2) + d := hstep (i + 1) (by omega)
  have h1 := hrow1 i (by omega)
  refine ⟨?_, h1, ?_, hrej _ hj hjN, hkeep i hjN⟩
  · simp only [ref_d, ref_v, hrow0 (i + 1)]
    split <;> omega
  · simp only [ref_d, ref_v, hrow0 (i + 1), h1]
    split_ifs <;> omega

/-- A linear progression with step 7 from a fresh source. -/
theorem linear_progression_rejected_witness :
    (0 ≤ (fresh toy).pool_ind 0 ∧ (fresh toy).pool_ind 0 < NR_POOLS) ∧
    ((∀ j, j ≤ 10 → (fun j => 1000 + j * 7) j = 1000 + j * 7) ∨
      (∀ j, j ≤ 10 → (fun j => 1000 + j * 7) j + j * 7 = 1000)) ∧
    rejected_after (fresh toy) 0 ((List.range 2).map (fun j => 1000 + j * 7))
      ((fun j => 1000 + j * 7) 2) :=
  ⟨by decide, Or.inl (fun _ _ => rfl),
    (linear_progression_rejected (fresh toy) 0 (fun j => 1000 + j * 7) 1000 7 10 (by decide)
      (Or.inl (fun _ _ => rfl)) 2 (by decide) (by decide)).2.2.2.1⟩

/-- The differences of `t^2 + 5`: order 3 vanishes, orders 0, 1, 2 are non-negative. -/
theorem squares_fdiff :
    (∀ t, fdiff squares 3 t = 0) ∧
    (∀ k, k < 3 → (∀ t, 0 ≤ fdiff squares k t) ∨ (∀ t, fdiff squares k t ≤ 0)) := by
  have h1 : ∀ t, fdiff squares 1 t = 2 * (t : Int) + 1 := by
    intro t; simp only [fdiff, squares]; push_cast; ring
  have h2 : ∀ t, fdiff squares 2 t = 2 := by
    intro t
    rw [fdiff, h1, h1]; push_cast; ring
  constructor
  · intro t
    rw [fdiff, h2, h2]; rfl
  · intro k hk
    left
    intro t
    interval_cases k
    · simp [fdiff]
    · rw [h1]; omega
    · rw [h2]; decide

/-- The case of a progression all of whose terms and differences are given: when the
difference of order `n <= 16` vanishes everywhere and the differences of each order
below `n` keep one sign everywhere, every sample `s t` with `t >= 16` is rejected. -/
theorem total_progression_rejected (st : State) (source : Nat) (s : Nat → Nat) (n : Nat)
    (hcold : st.deriv source = fun _ => 0)
    (hp : 0 ≤ st.pool_ind source ∧ st.pool_ind source < NR_POOLS)
    (hn : n ≤ N_DERIV) (hpoly : ∀ t, fdiff s n t = 0)
    (hsign : ∀ k, k < n → (∀ t, 0 ≤ fdiff s k t) ∨ (∀ t, fdiff s k t ≤ 0)) :
    ∀ t, N_DERIV ≤ t → rejected_after st source ((List.range t).map s) (s t) := by
  intro t ht
  apply rejected_after_of_min st source _ _ hp
  rw [hcold]
  exact poly_min s n t hn (fun u _ => hpoly u)
    (fun k hk => (hsign k hk).elim (fun h => Or.inl (fun u _ => h u))
      (fun h => Or.inr (fun u _ => h u))) t ht (le_refl t)

/-- A descending line: the terms `5000 - 3 t` for `t <= 1000`, on a fresh source. -/
theorem descending_line_rejected :
    ∀ t, N_DERIV ≤ t → t ≤ 1000 →
      rejected_after (fresh toy) 0 ((List.range t).map (fun j => 5000 - 3 * j)) (5000 - 3 * t) := by
  intro t ht hT
  apply rejected_after_of_min (fresh toy) 0 _ _ (by decide)
  rw [fresh_cold]
  refine poly_min (fun j => 5000 - 3 * j) 2 1000 (by decide) ?_ ?_ t ht hT
  · intro u hu
    simp only [fdiff]
    omega
  · intro k hk
    interval_cases k
    · left; intro u _; simp only [fdiff]; omega
    · right; intro u hu; simp only [fdiff]; omega

/-- The differences of the terms `0..T` of `t^2 + 5`, for every `T`. -/
theorem squares_window (T : Nat) :
    (∀ t, t + 3 ≤ T → fdiff squares 3 t = 0) ∧
    (∀ k, k < 3 →
      (∀ t, t + k ≤ T → 0 ≤ fdiff squares k t) ∨ (∀ t, t + k ≤ T → fdiff squares k t ≤ 0)) :=
  ⟨fun t _ => squares_fdiff.1 t, fun k hk =>
    (squares_fdiff.2 k hk).elim (fun h => Or.inl (fun t _ => h t)) (fun h => Or.inr (fun t _ => h t))⟩

/-- C17 (as amended): on a freshly initialised engine `random_update` of source 0 with
the 256 samples 1000, ..., 1255 returns; the first sample is accepted into pool 0
(all its differences against the zero row are 1000) and the other 255 are rejected,
so `samples` is 1, the pool index of source 0 is 1, no reseed happened and
`random_isseeded` is still 0. -/
theorem ticks_credit_first_sample (P : Prims) :
    ∃ st1, random_update P (fresh P) 0 (List.range' 1000 256) = some st1 ∧
      st1.samples = 1 ∧ random_isseeded st1 = 0 ∧ st1.reseed_count = 0 ∧
      st1.pool_ind 0 = 1 ∧ st1.pool_ctx 0 = word_bytes 4 1000 :=
  update_ticks P

/-- C17 fails as stated: after the 256 ticks `samples` is 1, not 0. -/
theorem ticks_counterexample :
    ∃ st1, random_update toy (fresh toy) 0 (List.range' 1000 256) = some st1 ∧
      st1.samples = 1 ∧ ¬ (st1.samples = 0 ∧ random_isseeded st1 = 0) := by
  obtain ⟨st1, h1, h2, _⟩ := update_ticks toy
  exact ⟨st1, h1, h2, fun h => by rw [h2] at h; exact absurd h.1 (by decide)⟩

/-! ## Counter continuity across a reseed -/

theorem seeded_by_eq (P : Prims) (b1 : List Nat) (h1 : b1.length = 32) :
    seeded_by P b1 =
      { fresh P with
        reseed_count := 1
        pool_ctx := fun _ => []
        random_key := P.sha256 (P.sha256 b1)
        samples := 0
        got_seeded := 1 } := by
  have hs : MIN_SAMPLES ≤ (0 + b1.length * 8 % WORD) % WORD := by
    rw [h1]; decide
  rw [seeded_by, random_putbytes, reseed_first P _ rfl hs]
  have hpool : Function.update (Function.update (fresh P).pool_ctx 0
      (SHA256_Update ((fresh P).pool_ctx 0) b1)) 0 SHA256_Init = fun _ => [] := by
    funext i
    by_cases hi : i = 0
    · subst hi; simp [SHA256_Init]
    · simp [Function.update, hi, fresh, random_init, boot, SHA256_Init]
  simp only [hpool]
  congr 1

theorem drawn_once_eq (P : Prims) (b1 : List Nat) (h1 : b1.length = 32) :
    random_getbytes P (seeded_by P b1) 16 =
      ({ set_counter (seeded_by P b1) 3 with
          random_key :=
            P.rijndael (P.sha256 (P.sha256 b1)) (blk 1) ++
            P.rijndael (P.sha256 (P.sha256 b1)) (blk 2) },
        P.rijndael (P.sha256 (P.sha256 b1)) (blk 0)) := by
  have hk : (seeded_by P b1).random_key = P.sha256 (P.sha256 b1) := by
    rw [seeded_by_eq P b1 h1]
  have hc : counter (seeded_by P b1) = 0 := by
    rw [seeded_by_eq P b1 h1]; rfl
  rw [random_getbytes_counter_mode P _ 16
    (by rw [seeded_by_eq P b1 h1]; exact (by decide : (0 : Nat) < WORD))
    (by rw [seeded_by_eq P b1 h1]; exact (by decide : (0 : Nat) < WORD)), hk, hc]
  have hst : stream P (P.sha256 (P.sha256 b1)) 0 (nblocks 16) =
      P.rijndael (P.sha256 (P.sha256 b1)) (blk 0) := by
    simp [stream, nblocks, List.range_succ]
  rw [hst, List.take_of_length_le (by rw [P.rijndael_length]; decide)]
  rfl

theorem putbytes_second_reseed (P : Prims) (st : State) (buf : List Nat)
    (hrc : st.reseed_count = 1)
    (h : MIN_SAMPLES ≤ (st.samples + buf.length * 8 % WORD) % WORD) :
    (random_putbytes P st buf).reseed_count = 2 ∧
    (random_putbytes P st buf).samples = 0 ∧
    (random_putbytes P st buf).random_key =
      P.sha256 ((if st.got_seeded ≠ 0 then st.random_key else []) ++
        (P.sha256 (st.pool_ctx 0 ++ buf) ++ P.sha256 (st.pool_ctx 1))) := by
  obtain ⟨k, hk32, hiff, hrun⟩ := reseed_run_spec P
    { st with
      pool_ctx := Function.update st.pool_ctx 0 (SHA256_Update (st.pool_ctx 0) buf)
      samples := (st.samples + buf.length * 8 % WORD) % WORD } h
  have hk1 : k = 1 := by
    have e1 := hiff 1
    have e2 := hiff 2
    simp only [hrc] at e1 e2
    have a1 : 1 ≤ k := e1.mpr (by simp [WORD, NR_POOLS])
    by_contra hne
    have := e2.mp (by omega)
    simp [WORD] at this
  subst hk1
  rw [random_putbytes, reseed, hrun]
  refine ⟨by simp only [hrc]; rfl, rfl, ?_⟩
  simp only [feed_eq_append, SHA256_Final, reseed_ctx0, SHA256_Update, SHA256_Init,
    List.nil_append]
  simp [List.range_succ]

/-- The run init, `random_putbytes` of 32 bytes, `random_getbytes` of 16 bytes,
`random_putbytes` of 32 bytes, `random_getbytes` of 16 bytes. -/
theorem counter_continuity (P : Prims) (b1 b2 : List Nat)
    (h1 : b1.length = 32) (h2 : b2.length = 32) :
    random_isseeded (seeded_by P b1) = 1 ∧ counter (seeded_by P b1) = 0 ∧
    (random_getbytes P (seeded_by P b1) 16).2 = P.rijndael (seeded_by P b1).random_key (blk 0) ∧
    (drawn_once P b1).random_key =
      P.rijndael (seeded_by P b1).random_key (blk 1) ++
      P.rijndael (seeded_by P b1).random_key (blk 2) ∧
    counter (drawn_once P b1) = 3 ∧
    (reseeded P b1 b2).reseed_count = 2 ∧ (reseeded P b1 b2).samples = 0 ∧
    counter (reseeded P b1 b2) = 3 ∧
    (reseeded P b1 b2).random_key =
      P.sha256 ((drawn_once P b1).random_key ++ (P.sha256 b2 ++ P.sha256 [])) ∧
    (random_getbytes P (reseeded P b1 b2) 16).2 =
      P.rijndael (reseeded P b1 b2).random_key (blk 3) := by
  have hk : (seeded_by P b1).random_key = P.sha256 (P.sha256 b1) := by
    rw [seeded_by_eq P b1 h1]
  have hd := drawn_once_eq P b1 h1
  have hd1 : drawn_once P b1 = { set_counter (seeded_by P b1) 3 with
      random_key :=
        P.rijndael (P.sha256 (P.sha256 b1)) (blk 1) ++
        P.rijndael (P.sha256 (P.sha256 b1)) (blk 2) } := by
    rw [drawn_once, hd]
  have hcd : counter (drawn_once P b1) = 3 := by rw [hd1]; rfl
  have hlo : (drawn_once P b1).count_lo = 3 := by rw [hd1]; rfl
  have hhi : (drawn_once P b1).count_hi = 0 := by rw [hd1]; rfl
  have hsam : (drawn_once P b1).samples = 0 := by rw [hd1, seeded_by_eq P b1 h1]; rfl
  have hrc : (drawn_once P b1).reseed_count = 1 := by rw [hd1, seeded_by_eq P b1 h1]; rfl
  have hgs : (drawn_once P b1).got_seeded = 1 := by rw [hd1, seeded_by_eq P b1 h1]; rfl
  have hpl : (drawn_once P b1).pool_ctx = fun _ => [] := by rw [hd1, seeded_by_eq P b1 h1]; rfl
  have hcredit : MIN_SAMPLES ≤ ((drawn_once P b1).samples + b2.length * 8 % WORD) % WORD := by
    rw [hsam, h2]; decide
  obtain ⟨r1, r2, r3⟩ := putbytes_second_reseed P (drawn_once P b1) b2 hrc hcredit
  have hfr := reseed_frame P
    { drawn_once P b1 with
      pool_ctx := Function.update (drawn_once P b1).pool_ctx 0
        (SHA256_Update ((drawn_once P b1).pool_ctx 0) b2)
      samples := ((drawn_once P b1).samples + b2.length * 8 % WORD) % WORD }
  have hlo3 : (reseeded P b1 b2).count_lo = 3 := hfr.1.trans hlo
  have hhi3 : (reseeded P b1 b2).count_hi = 0 := hfr.2.1.trans hhi
  have hc3 : counter (reseeded P b1 b2) = 3 := by
    rw [counter, hlo3, hhi3, Nat.mul_zero]
  refine ⟨?_, ?_, ?_, ?_, hcd, r1, r2, hc3, ?_, ?_⟩
  · rw [seeded_by_eq P b1 h1]; rfl
  · rw [seeded_by_eq P b1 h1]; rfl
  · rw [hd, hk]
  · rw [hd1, hk]
  · rw [reseeded, r3, hgs, hpl]
    simp
  · rw [random_getbytes_counter_mode P _ 16 (by rw [hlo3]; decide) (by rw [hhi3]; decide), hc3]
    simp only []
    have hst : ∀ K, stream P K 3 (nblocks 16) = P.rijndael K (blk 3) := by
      intro K
      simp [stream, nblocks, List.range_succ]
    rw [hst, List.take_of_length_le (by rw [P.rijndael_length]; decide)]

/-- C14 (as amended): a fresh engine seeded by `random_putbytes` of 32 bytes has
counter 0; `random_getbytes` of 16 bytes returns the encryption of the block of
counter value 0, rekeys with the blocks of counter values 1 and 2 and leaves the
counter at 3; `random_putbytes` of 32 more bytes forces the second reseed, which
replaces the key and keeps the counter 3; the next `random_getbytes` of 16 bytes
returns the encryption, under the new key, of the block of counter value 3. -/
theorem counter_continues_from_three (P : Prims) (b1 b2 : List Nat)
    (h1 : b1.length = 32) (h2 : b2.length = 32) :
    random_isseeded (seeded_by P b1) = 1 ∧ counter (seeded_by P b1) = 0 ∧
    (random_getbytes P (seeded_by P b1) 16).2 = P.rijndael (seeded_by P b1).random_key (blk 0) ∧
    (drawn_once P b1).random_key =
      P.rijndael (seeded_by P b1).random_key (blk 1) ++
      P.rijndael (seeded_by P b1).random_key (blk 2) ∧
    counter (drawn_once P b1) = 3 ∧
    (reseeded P b1 b2).reseed_count = 2 ∧ (reseeded P b1 b2).samples = 0 ∧
    counter (reseeded P b1 b2) = 3 ∧
    (reseeded P b1 b2).random_key =
      P.sha256 ((drawn_once P b1).random_key ++ (P.sha256 b2 ++ P.sha256 [])) ∧
    (random_getbytes P (reseeded P b1 b2) 16).2 =
      P.rijndael (reseeded P b1 b2).random_key (blk 3) :=
  counter_continuity P b1 b2 h1 h2

/-- The run with buffers of 32 zeros and 32 sevens. -/
theorem counter_continues_from_three_witness :
    (List.replicate 32 0).length = 32 ∧ (List.replicate 32 7).length = 32 ∧
    counter (drawn_once toy (List.replicate 32 0)) = 3 ∧
    (random_getbytes toy (reseeded toy (List.replicate 32 0) (List.replicate 32 7)) 16).2 =
      toy.rijndael (reseeded toy (List.replicate 32 0) (List.replicate 32 7)).random_key (blk 3) :=
  ⟨rfl, rfl,
    (counter_continues_from_three toy (List.replicate 32 0) (List.replicate 32 7) rfl rfl).2.2.2.2.1,
    (counter_continues_from_three toy (List.replicate 32 0) (List.replicate 32
      7) rfl rfl).2.2.2.2.2.2.2.2.2⟩

/-- C14 fails as stated: after the first draw the counter is 3, not 4, and the draw
after the reseed is the encryption of the block of counter value 3, not 4. -/
theorem counter_four_counterexample :
    random_isseeded (seeded_by toy (List.replicate 32 0)) = 1 ∧
    counter (seeded_by toy (List.replicate 32 0)) = 0 ∧
    counter (drawn_once toy (List.replicate 32 0)) = 3 ∧
    ¬ (counter (drawn_once toy (List.replicate 32 0)) = 4) ∧
    blk 3 ≠ blk 4 ∧
    (random_getbytes toy (reseeded toy (List.replicate 32 0) (List.replicate 32 7)) 16).2 =
      toy.rijndael (reseeded toy (List.replicate 32 0) (List.replicate 32 7)).random_key (blk 3) ∧
    (random_getbytes toy (reseeded toy (List.replicate 32 0) (List.replicate 32 7)) 16).2 ≠
      toy.rijndael (reseeded toy (List.replicate 32 0) (List.replicate 32 7)).random_key
        (blk 4) := by
  obtain ⟨a1, a2, _, _, a5, _, _, _, _, a10⟩ :=
    counter_continuity toy (List.replicate 32 0) (List.replicate 32 7) rfl rfl
  have hne : ∀ K : List Nat, toy.rijndael K (blk 3) ≠ toy.rijndael K (blk 4) := by
    intro K h
    have h0 := congrArg (fun l => l.getD 0 0) h
    simp [toy, toy_rijndael, blk, word_bytes, List.range_succ] at h0
    omega
  exact ⟨a1, a2, a5, by rw [a5]; decide, by decide, a10, by rw [a10]; exact hne _⟩

/-! ## Instances -/

/-- A seeded engine stays seeded across `random_init`. -/
theorem seeded_is_monotone_witness :
    random_isseeded (reseed toy first_reseed) = 1 ∧
    random_isseeded (random_init toy (reseed toy first_reseed)) = 1 :=
  ⟨by decide, (seeded_is_monotone toy (reseed toy first_reseed) (by decide)).2.1⟩

/-- A reseeding `random_putbytes` near the wrap of the counter keeps the counter. -/
theorem absorb_keeps_counter_witness :
    (random_putbytes toy near_wrap (List.replicate 32 0)).count_lo = near_wrap.count_lo ∧
    (random_putbytes toy near_wrap (List.replicate 32 0)).count_hi = near_wrap.count_hi :=
  (absorb_keeps_counter toy near_wrap).2.1 (List.replicate 32 0)

/-- The bits tested at the fourth reseed of the small instance. -/
theorem reseed_stops_at_first_set_bit_witness :
    MIN_SAMPLES ≤ fourth_reseed.samples ∧
    ∃ k, k < NR_POOLS ∧
      (reseed_run toy fourth_reseed).2 = List.range' 1 k ∧
      (∀ j, j < k → ((reseed toy fourth_reseed).reseed_count).testBit j = false) ∧
      (k + 1 < NR_POOLS → ((reseed toy fourth_reseed).reseed_count).testBit k = true) ∧
      (∀ i, i ∈ (reseed_run toy fourth_reseed).2 ↔
        (1 ≤ i ∧ i < NR_POOLS ∧
          ∀ j, j < i → ((reseed toy fourth_reseed).reseed_count).testBit j = false)) :=
  ⟨by decide, reseed_stops_at_first_set_bit toy fourth_reseed (by decide)⟩

end Random
